import Mathlib

/-!
Verification of `scripts/rebuild_catalog.py` (cleantech-data repository).

The script is shallowly embedded below: a filesystem tree becomes a list of
files (paths plus the outcome of parsing each metadata sidecar as JSON), the
two `rglob` scan passes become folds over that list, and the produced
`catalog.json` document becomes a `Catalog` structure.  Python string
operations (`str.replace`, `str.title`, `pathlib.Path.stem`, `str.split`)
are modelled character by character with their exact semantics, since several
claims hinge on them.
-/

namespace RebuildCatalog

/-! ## Character-level string primitives -/

/-- Model of Python `str.replace(pat, rep)` on character lists: every
non-overlapping occurrence of `pat` is replaced by `rep`, scanning left to
right.  Fuel-based structural recursion (fuel = length of the subject string
suffices, as each step consumes at least one character when `pat ≠ []`);
an empty pattern is mapped to the identity (the script never calls
`replace` with an empty pattern). -/
def replaceFuel : Nat → List Char → List Char → List Char → List Char
  | 0, s, _, _ => s
  | Nat.succ _, [], _, _ => []
  | Nat.succ n, c :: rest, pat, rep =>
    if pat ≠ [] ∧ pat.isPrefixOf (c :: rest) then
      rep ++ replaceFuel n ((c :: rest).drop pat.length) pat rep
    else
      c :: replaceFuel n rest pat rep

/-- Python `s.replace(pat, rep)` for strings. -/
def pyReplace (s pat rep : String) : String :=
  ⟨replaceFuel s.data.length s.data pat.data rep.data⟩

/-- One step of Python `str.title`: `prev` records whether the previous
character was cased (a letter).  The first character of each run of letters
is uppercased, subsequent ones lowercased; non-letters pass through and
reset the run. -/
def titleChars : Bool → List Char → List Char
  | _, [] => []
  | prev, c :: rest =>
    let cased := c.isAlpha
    (if cased then (if prev then c.toLower else c.toUpper) else c)
      :: titleChars cased rest

/-- Python `s.title()` (ASCII letters; the script only titles filename
stems). -/
def pyTitle (s : String) : String := ⟨titleChars false s.data⟩

/-- Index of the last `'.'` in a character list, if any. -/
def lastDotIdx : List Char → Option Nat
  | [] => none
  | c :: rest =>
    match lastDotIdx rest with
    | some i => some (i + 1)
    | none => if c = '.' then some 0 else none

/-- Model of `pathlib.PurePath.stem` applied to a file NAME: the name up to
its last `'.'`, except when that dot is the first character or the last
character (then the whole name is returned). -/
def pyStem (name : String) : String :=
  match lastDotIdx name.data with
  | some i =>
    if 0 < i ∧ i < name.data.length - 1 then ⟨name.data.take i⟩ else name
  | none => name

/-- Split a character list on `'/'` (Python `str.split("/")`): always returns
at least one (possibly empty) piece. -/
def splitSlashChars : List Char → List (List Char)
  | [] => [[]]
  | c :: rest =>
    let r := splitSlashChars rest
    if c = '/' then [] :: r
    else
      match r with
      | s :: ss => (c :: s) :: ss
      | [] => [[c]]

/-- Python `csv_path.split("/")` as a list of segment strings. -/
def splitSlash (s : String) : List String :=
  (splitSlashChars s.data).map (fun cs => ⟨cs⟩)

/-- Join segments with `'/'` (inverse of `splitSlashChars` on slash-free
segments). -/
def joinChars : List (List Char) → List Char
  | [] => []
  | [s] => s
  | s :: rest => s ++ '/' :: joinChars rest

/-- Join segment strings with `"/"`. -/
def joinSegs (l : List String) : String := ⟨joinChars (l.map String.data)⟩

/-- A segment is slash-free (true of every real path component). -/
def segOk (s : String) : Bool := s.data.all (fun c => c ≠ '/')

/-- Lexicographic (code-point) comparison of character lists: the order
Python uses to compare `str` values. -/
def lexLe : List Char → List Char → Bool
  | [], _ => true
  | _ :: _, [] => false
  | a :: as, b :: bs => if a < b then true else if b < a then false else lexLe as bs

/-- Python `s <= t` on strings (the sort key comparison of the script). -/
def strLe (a b : String) : Bool := lexLe a.data b.data

/-- Does `s` end with `suffix`? (the `rglob("*.meta.json")` / `rglob("*.csv")`
name patterns: `*` matches any sequence of characters, so the pattern tests
exactly the name's suffix). -/
def endsWith (s suffix : String) : Bool := suffix.data.isSuffixOf s.data

/-! ## The year-month regular expression

The script tests path segments with `re.match(r"^\d{4}-\d{2}$", part)`.
`re.match` anchors at the start; the explicit `^` is redundant.  Per the
Python `re` documentation, `$` "matches at the end of the string or just
before the newline at the end of the string", so the pattern accepts both
`DDDD-DD` and `DDDD-DD\n`.  `\d` is modelled as an ASCII digit (the model's
segment alphabet). -/

/-- Consume exactly `n` digits from the front, returning the rest. -/
def matchDigits : Nat → List Char → Option (List Char)
  | 0, cs => some cs
  | _ + 1, [] => none
  | n + 1, c :: cs => if c.isDigit then matchDigits n cs else none

/-- Python-`re` `$` anchor: end of string, or just before one final
newline. -/
def dollarAnchor : List Char → Bool
  | [] => true
  | [c] => decide (c = '\n')
  | _ => false

/-- Model of `re.match(r"^\d{4}-\d{2}$", s)` being a match (the script's
year-month test): four digits, a hyphen, two digits, then the `$` anchor. -/
def reMatchYM (s : String) : Bool :=
  match matchDigits 4 s.data with
  | none => false
  | some rest =>
    match rest with
    | r :: rest2 =>
      if r = '-' then
        match matchDigits 2 rest2 with
        | none => false
        | some rest3 => dollarAnchor rest3
      else false
    | [] => false

/-! ## JSON values and the data model -/

/-- A parsed JSON value (`json.load`).  Numbers are modelled as integers
(no claim depends on fractional values); an object is its key/value pairs
in insertion order — values coming from `json.load` have pairwise distinct
keys, since Python parses objects into a `dict`. -/
inductive Json where
  | null
  | bool (b : Bool)
  | num (n : Int)
  | str (s : String)
  | arr (elems : List Json)
  | obj (fields : List (String × Json))

/-- `o.get(k)` on a parsed JSON object (Python `dict.get`): the value at the
first matching key, if any. -/
def lookupJ (k : String) : List (String × Json) → Option Json
  | [] => none
  | (k2, v) :: rest => if k2 = k then some v else lookupJ k rest

/-- A relative filesystem path: directory segments plus the final name
(`pathlib.Path` stores exactly these components; `with_name` swaps the final
one). -/
structure FPath where
  dir : List String
  name : String
deriving DecidableEq

/-- `p.with_name(n)`. -/
def FPath.withName (p : FPath) (n : String) : FPath := { dir := p.dir, name := n }

/-- `p.as_posix()`: the segments joined with `"/"`. -/
def FPath.posix (p : FPath) : String := joinSegs (p.dir ++ [p.name])

/-- One file of the scanned tree.  `parsed` is the outcome of `json.load` on
the file's text: `some j` when it parses to the JSON value `j`, `none` when
reading or parsing raises (`OSError` / `json.JSONDecodeError`).  It is only
consulted for files the script opens, i.e. `*.meta.json` sidecars. -/
structure FSFile where
  path : FPath
  parsed : Option Json

/-- `path.exists()`: membership of the path in the tree. -/
def existsIn (T : List FSFile) (p : FPath) : Bool :=
  T.any (fun f => decide (f.path = p))

/-- One entry of the catalog's `datasets` list (fixed key set in the
script, hence a structure).  Fields copied from the sidecar can be any JSON
value; the freshness placeholders are always `null`. -/
structure Entry where
  csv_path : String
  metadata_path : Option String
  title : Json
  description : Json
  source : List (String × Json)
  tags : Json
  license : Json
  created_at : Json
  thematic_name : Option String
  year_month : Option String
  filename : String
  has_metadata : Bool
  freshness_score : Json
  freshness_status : Json
  freshness_indicator : Json
  data_as_of : Json
  source_reliability : Json
  days_since_check : Json
  warning : Json

/-- The catalog document returned by `rebuild_catalog`. -/
structure Catalog where
  schema_version : String
  generated_at : String
  total_datasets : Nat
  datasets : List Entry

/-! ## The script's functions -/

/-- `_extract_path_components(csv_path)`: split the POSIX path on `"/"`; the
filename is the last segment, `year_month` the first segment matching the
year-month regex, and `thematic_name` the second-to-last segment when there
are at least two segments and it neither matches the regex nor equals
`"data"`. -/
def extract_path_components (csv_path : String) :
    Option String × Option String × String :=
  let parts := splitSlash csv_path
  let filename := parts.getLastD ""
  let year_month := parts.find? (fun part => reMatchYM part)
  let thematic_name :=
    if 2 ≤ parts.length then
      let parent := parts.getD (parts.length - 2) ""
      if ¬ (reMatchYM parent = true) ∧ parent ≠ "data" then some parent else none
    else none
  (thematic_name, year_month, filename)

/-- `meta_file.name.replace(".meta.json", ".csv")`. -/
def metaToCsvName (n : String) : String := pyReplace n ".meta.json" ".csv"

/-- `csv_file.name.replace(".csv", ".meta.json")`. -/
def csvToMetaName (n : String) : String := pyReplace n ".csv" ".meta.json"

/-- Does a name match `rglob("*.meta.json")`? -/
def isMetaName (n : String) : Bool := endsWith n ".meta.json"

/-- Does a name match `rglob("*.csv")`? -/
def isCsvName (n : String) : Bool := endsWith n ".csv"

/-- The sidecar path the fallback pass derives for a CSV file:
`csv_file.with_name(csv_file.name.replace(".csv", ".meta.json"))`. -/
def sidecarFP (p : FPath) : FPath := p.withName (csvToMetaName p.name)

/-- The companion CSV path the metadata pass derives for a sidecar:
`meta_file.with_name(meta_file.name.replace(".meta.json", ".csv"))`. -/
def companionFP (p : FPath) : FPath := p.withName (metaToCsvName p.name)

/-- `csv_file.stem.replace("-", " ").replace("_", " ").title()`: the default
"humanized" title built from a filename stem. -/
def humanizeStem (stem : String) : String :=
  pyTitle (pyReplace (pyReplace stem "-" " ") "_" " ")

/-- `meta.get("source", {"name": "Unknown", "url": None})`, copied
(`dict(...)`) when it is a dict and replaced by the default otherwise. -/
def rawSource (o : List (String × Json)) : List (String × Json) :=
  match lookupJ "source" o with
  | some (Json.obj fields) => fields
  | _ => [("name", Json.str "Unknown"), ("url", Json.null)]

/-- The `source` object of a metadata entry: the copy of the sidecar's
(line 68), given `import_type: "csv"` when that key is absent (lines
69–70; key presence, not value truthiness, is what `not in` tests). -/
def buildSource (o : List (String × Json)) : List (String × Json) :=
  if (lookupJ "import_type" (rawSource o)).isNone then
    rawSource o ++ [("import_type", Json.str "csv")]
  else rawSource o

/-- The catalog entry the metadata pass builds for companion CSV path `c`,
sidecar path `mp` and parsed sidecar object `o` (lines 62–95 of the
script). -/
def buildMetaEntry (c mp : FPath) (o : List (String × Json)) : Entry :=
  let csv_path := c.posix
  let comps := extract_path_components csv_path
  { csv_path := csv_path
    metadata_path := some mp.posix
    title := (lookupJ "title" o).getD (Json.str (humanizeStem (pyStem c.name)))
    description := (lookupJ "description" o).getD (Json.str "")
    source := buildSource o
    tags := (lookupJ "tags" o).getD (Json.arr [])
    license := (lookupJ "license" o).getD (Json.str "Unknown")
    created_at := (lookupJ "created_at" o).getD Json.null
    thematic_name := comps.1
    year_month := comps.2.1
    filename := comps.2.2
    has_metadata := true
    freshness_score := Json.null
    freshness_status := Json.null
    freshness_indicator := Json.null
    data_as_of := Json.null
    source_reliability := Json.null
    days_since_check := Json.null
    warning := Json.null }

/-- The fallback entry built for a CSV path with no (derived) sidecar
(lines 104–128 of the script).  Note `[thematic_name] if thematic_name else []`:
Python truthiness makes the empty string act like `None` in the `tags`
computation. -/
def buildFallbackEntry (p : FPath) : Entry :=
  let csv_path := p.posix
  let comps := extract_path_components csv_path
  let title := humanizeStem (pyStem p.name)
  { csv_path := csv_path
    metadata_path := none
    title := Json.str title
    description := Json.str ("Dataset: " ++ title)
    source := [("name", Json.str "Unknown"), ("url", Json.null),
               ("import_type", Json.str "csv")]
    tags :=
      match comps.1 with
      | some t => if t = "" then Json.arr [] else Json.arr [Json.str t]
      | none => Json.arr []
    license := Json.str "Unknown"
    created_at := Json.null
    thematic_name := comps.1
    year_month := comps.2.1
    filename := comps.2.2
    has_metadata := false
    freshness_score := Json.null
    freshness_status := Json.null
    freshness_indicator := Json.null
    data_as_of := Json.null
    source_reliability := Json.null
    days_since_check := Json.null
    warning := Json.null }

/-- The metadata pass (`for meta_file in data_dir.rglob("*.meta.json")`),
iterating over the remaining files `L` of tree `T` in enumeration order.
Returns the entries and the warned-about sidecar paths (stderr diagnostics),
or `none` when the loop raises an uncaught exception: `json.load` returning a
non-dict makes `meta.get` raise `AttributeError`, which the script's
`except (json.JSONDecodeError, OSError)` does not catch. -/
def pass1 (T : List FSFile) : List FSFile → Option (List Entry × List FPath)
  | [] => some ([], [])
  | m :: rest =>
    if isMetaName m.path.name then
      let c := companionFP m.path
      if existsIn T c then
        match m.parsed with
        | none =>
          (pass1 T rest).map (fun p => (p.1, m.path :: p.2))
        | some (Json.obj o) =>
          (pass1 T rest).map (fun p => (buildMetaEntry c m.path o :: p.1, p.2))
        | some _ => none
      else pass1 T rest
    else pass1 T rest

/-- The fallback pass (`for csv_file in data_dir.rglob("*.csv")`): a CSV is
skipped exactly when its derived sidecar path exists. -/
def pass2 (T : List FSFile) : List FSFile → List Entry
  | [] => []
  | f :: rest =>
    if isCsvName f.path.name then
      if existsIn T (sidecarFP f.path) then pass2 T rest
      else buildFallbackEntry f.path :: pass2 T rest
    else pass2 T rest

/-- Stable insertion into a list sorted by `csv_path` (an element is placed
before the first existing element it is `<=` to). -/
def insertEntry (e : Entry) : List Entry → List Entry
  | [] => [e]
  | x :: xs =>
    if strLe e.csv_path x.csv_path then e :: x :: xs else x :: insertEntry e xs

/-- Model of `sorted(datasets, key=lambda x: x["csv_path"])`: a stable sort
by the `csv_path` string (Python's sort is stable; on lists whose keys are
pairwise distinct any two stable sorts agree, and the stability of this
insertion sort matches Python's on equal keys: earlier elements stay
earlier). -/
def sortEntries : List Entry → List Entry
  | [] => []
  | e :: es => insertEntry e (sortEntries es)

/-- `rebuild_catalog`: run both passes over the tree `T` (in enumeration
order), wrap the entries in the document envelope.  `now` stands for
`datetime.now(timezone.utc).isoformat()`, an external input to the model.
`none` models the uncaught exception described at `pass1`. -/
def rebuild_catalog (now : String) (T : List FSFile) :
    Option (Catalog × List FPath) :=
  match pass1 T T with
  | none => none
  | some (es, ws) =>
    let datasets := es ++ pass2 T T
    some ({ schema_version := "1.0"
            generated_at := now
            total_datasets := datasets.length
            datasets := sortEntries datasets }, ws)

/-! ## Derived notions used to state the claims -/

/-- A path whose segments are all slash-free (true of every path `pathlib`
hands the script: path components cannot contain the separator). -/
def okPath (p : FPath) : Bool := p.dir.all segOk && segOk p.name

/-- Every file of the tree has a slash-free path: what a real filesystem
guarantees about the paths `rglob` yields. -/
def wfTree (T : List FSFile) : Bool := T.all (fun f => okPath f.path)

/-- No two files of the tree share a path (a filesystem guarantee). -/
abbrev pathsNodup (T : List FSFile) : Prop := (T.map (fun f => f.path)).Nodup

/-- The suffix surgery on a `.csv` name round-trips: true exactly when the
substrings `".csv"` / `".meta.json"` occur in the name only as its final
suffix, the situation the script's comments (`remove .meta.json suffix`)
assume. -/
def goodCsvName (n : String) : Bool :=
  !(isCsvName n) ||
    (isMetaName (csvToMetaName n) && decide (metaToCsvName (csvToMetaName n) = n))

/-- The suffix surgery on a `.meta.json` name round-trips. -/
def goodMetaName (n : String) : Bool :=
  !(isMetaName n) ||
    (isCsvName (metaToCsvName n) && decide (csvToMetaName (metaToCsvName n) = n))

/-- Every filename of the tree round-trips under the sidecar/CSV name
surgery. -/
def goodNames (T : List FSFile) : Bool :=
  T.all (fun f => goodCsvName f.path.name && goodMetaName f.path.name)

/-- What the metadata pass contributes for the file `m` of tree `T`: the
entry built from its parsed sidecar object, when `m` is a sidecar whose
derived companion CSV exists and whose text parses to a JSON object. -/
def metaEmits (T : List FSFile) (m : FSFile) : Option Entry :=
  if isMetaName m.path.name then
    if existsIn T (companionFP m.path) then
      match m.parsed with
      | some (Json.obj o) => some (buildMetaEntry (companionFP m.path) m.path o)
      | _ => none
    else none
  else none

/-- The diagnostic the metadata pass emits for the file `m`: its path, when
`m` is a sidecar whose companion CSV exists but whose text fails to read or
parse. -/
def warnEmits (T : List FSFile) (m : FSFile) : Option FPath :=
  if isMetaName m.path.name then
    if existsIn T (companionFP m.path) then
      match m.parsed with
      | none => some m.path
      | some _ => none
    else none
  else none

/-- What the fallback pass contributes for the file `f`: a fallback entry,
when `f` is a CSV whose derived sidecar path does not exist. -/
def fbEmits (T : List FSFile) (f : FSFile) : Option Entry :=
  if isCsvName f.path.name then
    if existsIn T (sidecarFP f.path) then none
    else some (buildFallbackEntry f.path)
  else none

/-- The multiset of entries a successful rebuild sorts, as one list. -/
def allEmits (T : List FSFile) : List Entry :=
  T.filterMap (metaEmits T) ++ T.filterMap (fbEmits T)

/-- A sidecar whose companion exists and whose text parses to a non-object
JSON value: on such a file the script raises an uncaught `AttributeError`
(`meta.get` on a non-dict). -/
def badMeta (T : List FSFile) (m : FSFile) : Prop :=
  isMetaName m.path.name = true ∧ existsIn T (companionFP m.path) = true ∧
    ∃ j, m.parsed = some j ∧ ∀ o, j ≠ Json.obj o

/-- The catalog entries carrying a given `csv_path` value. -/
def entriesFor (cat : Catalog) (p : String) : List Entry :=
  cat.datasets.filter (fun e => decide (e.csv_path = p))

/-- Comparison of entries by their sort key, as `sorted(..., key=...)`
uses it. -/
def entryLe (a b : Entry) : Prop := strLe a.csv_path b.csv_path = true

/-! ## The Path Classifier as claim C5 words it

Claim C5 describes `_extract_path_components` in its own terms; the
definitions below follow the claim's wording (last segment, second-to-last
segment, a segment that "matches exactly four digits, a hyphen, two
digits").  They are deliberately built differently from the script's
translation above, so that agreement between the two is a theorem. -/

/-- "matches exactly four digits, a hyphen, two digits". -/
def specYM (s : String) : Bool :=
  match s.data with
  | [a, b, c, d, h, e, f] =>
    a.isDigit && b.isDigit && c.isDigit && d.isDigit && decide (h = '-') &&
      e.isDigit && f.isDigit
  | _ => false

/-- The pattern of `specYM`, additionally tolerating one trailing newline —
the actual acceptance of Python's `re.match(r"^\d{4}-\d{2}$", ·)`. -/
def specYMRelaxed (s : String) : Bool :=
  specYM s ||
    (match s.data.getLast? with
     | some c => decide (c = '\n') && specYM (String.mk s.data.dropLast)
     | none => false)

/-- First element satisfying `p`, scanning left to right (the claim's
"scanning root to leaf"). -/
def firstMatching (p : String → Bool) : List String → Option String
  | [] => none
  | s :: rest => if p s then some s else firstMatching p rest

/-- The Path Classifier exactly as claim C5 states it, parametrised by the
year-month test. -/
def classifierOf (ym : String → Bool) (path : String) :
    Option String × Option String × String :=
  let segs := splitSlash path
  let filename := segs.reverse.headD ""
  let year_month := firstMatching ym segs
  let thematic_name :=
    match segs.reverse with
    | _ :: parent :: _ =>
      if ym parent || parent = "data" then none else some parent
    | _ => none
  (thematic_name, year_month, filename)

/-- The classifier of claim C5, read literally. -/
def claimClassifier (path : String) : Option String × Option String × String :=
  classifierOf specYM path

/-- The claim's classifier with the year-month pattern relaxed by one
optional trailing newline. -/
def claimClassifierRelaxed (path : String) :
    Option String × Option String × String :=
  classifierOf specYMRelaxed path

/-! ## Concrete trees used by witnesses and counterexamples -/

/-- `data/a.csv.csv` next to `data/a.csv.meta.json` (a valid, empty JSON
object): the interior `".csv"` occurrence defeats the suffix surgery. -/
def treeDup : List FSFile :=
  [ { path := { dir := ["data"], name := "a.csv.csv" }, parsed := none },
    { path := { dir := ["data"], name := "a.csv.meta.json" },
      parsed := some (Json.obj []) } ]

/-- `data/x.csv` next to a sidecar `data/x.meta.json` whose text does not
parse as JSON. -/
def treeMalformed : List FSFile :=
  [ { path := { dir := ["data"], name := "x.csv" }, parsed := none },
    { path := { dir := ["data"], name := "x.meta.json" }, parsed := none } ]

/-- `data/a.meta.json.csv` with its derived sidecar
`data/a.meta.json.meta.json` present but unparseable: the metadata pass
derives companion `data/a.csv.csv` (absent) and skips silently, the
fallback pass skips too. -/
def treeVanish : List FSFile :=
  [ { path := { dir := ["data"], name := "a.meta.json.csv" }, parsed := none },
    { path := { dir := ["data"], name := "a.meta.json.meta.json" },
      parsed := none } ]

/-- A sidecar whose `source` object explicitly maps `import_type` to
`null`. -/
def treeNullImport : List FSFile :=
  [ { path := { dir := ["data"], name := "x.csv" }, parsed := none },
    { path := { dir := ["data"], name := "x.meta.json" },
      parsed := some (Json.obj [("source",
        Json.obj [("import_type", Json.null)])]) } ]

/-- Two sidecars whose derived companion is the same CSV
`data/a.csv.csv`: the catalog then contains two entries with equal
`csv_path` whose relative order follows enumeration order. -/
def treeOrder : List FSFile :=
  [ { path := { dir := ["data"], name := "a.meta.json.meta.json" },
      parsed := some (Json.obj []) },
    { path := { dir := ["data"], name := "a.csv.meta.json" },
      parsed := some (Json.obj []) },
    { path := { dir := ["data"], name := "a.csv.csv" }, parsed := none } ]

/-- A single bare CSV. -/
def treeBasic : List FSFile :=
  [ { path := { dir := ["data"], name := "a.csv" }, parsed := none } ]

/-- A well-behaved mixed tree: one CSV with a valid sidecar, one bare
CSV. -/
def treeMixed : List FSFile :=
  [ { path := { dir := ["data"], name := "b.csv" }, parsed := none },
    { path := { dir := ["data"], name := "b.meta.json" },
      parsed := some (Json.obj [("title", Json.str "T")]) },
    { path := { dir := ["data"], name := "c.csv" }, parsed := none } ]

/-- A sidecar whose `tags` value is the JSON number `5`. -/
def treeTagsNum : List FSFile :=
  [ { path := { dir := ["data"], name := "x.csv" }, parsed := none },
    { path := { dir := ["data"], name := "x.meta.json" },
      parsed := some (Json.obj [("tags", Json.num 5)]) } ]

/-- The claim C7 example: a bare CSV named `gdp-growth_rate.csv`. -/
def treeGdp : List FSFile :=
  [ { path := { dir := ["data"], name := "gdp-growth_rate.csv" },
      parsed := none } ]

/-- Placeholder catalog used only as the `getD` default below (all the
trees above rebuild successfully, so it is never the value taken). -/
def emptyCatalog : Catalog :=
  { schema_version := "", generated_at := "", total_datasets := 0,
    datasets := [] }

/-- The (catalog, warnings) pair produced on `treeMixed`. -/
def mixedResult : Catalog × List FPath :=
  (rebuild_catalog "ts" treeMixed).getD (emptyCatalog, [])

/-- The pair produced on `treeMixed` enumerated in reverse, at another
timestamp. -/
def mixedRevResult : Catalog × List FPath :=
  (rebuild_catalog "ts2" treeMixed.reverse).getD (emptyCatalog, [])

/-- The pair produced on `treeBasic`. -/
def basicResult : Catalog × List FPath :=
  (rebuild_catalog "ts" treeBasic).getD (emptyCatalog, [])

/-- The pair produced on `treeGdp`. -/
def gdpResult : Catalog × List FPath :=
  (rebuild_catalog "ts" treeGdp).getD (emptyCatalog, [])

/-- The pair produced on `treeMalformed`. -/
def malformedResult : Catalog × List FPath :=
  (rebuild_catalog "ts" treeMalformed).getD (emptyCatalog, [])

/-! ## Lemmas: splitting and joining paths -/

lemma splitSlashChars_ne_nil (cs : List Char) : splitSlashChars cs ≠ [] := by
  cases cs with
  | nil => simp [splitSlashChars]
  | cons c rest =>
    simp only [splitSlashChars]
    split
    · simp
    · split <;> simp

lemma splitSlashChars_noslash (cs : List Char) (h : ∀ c ∈ cs, c ≠ '/') :
    splitSlashChars cs = [cs] := by
  induction cs with
  | nil => rfl
  | cons c rest ih =>
    have hc : ¬ (c = '/') := h c (List.mem_cons_self c rest)
    have hr : splitSlashChars rest = [rest] :=
      ih (fun x hx => h x (List.mem_cons_of_mem c hx))
    simp [splitSlashChars, hc, hr]

lemma splitSlashChars_append (s w : List Char) (h : ∀ c ∈ s, c ≠ '/') :
    splitSlashChars (s ++ '/' :: w) = s :: splitSlashChars w := by
  induction s with
  | nil => simp [splitSlashChars]
  | cons c s2 ih =>
    have hc : ¬ (c = '/') := h c (List.mem_cons_self c s2)
    have hr := ih (fun x hx => h x (List.mem_cons_of_mem c hx))
    simp [splitSlashChars, hc, hr]

lemma splitSlashChars_joinChars (L : List (List Char)) (hL : L ≠ [])
    (h : ∀ s ∈ L, ∀ c ∈ s, c ≠ '/') : splitSlashChars (joinChars L) = L := by
  induction L with
  | nil => exact absurd rfl hL
  | cons s rest ih =>
    cases rest with
    | nil =>
      have := splitSlashChars_noslash s (h s (List.mem_cons_self s []))
      simpa [joinChars] using this
    | cons t rest2 =>
      have hjoin : joinChars (s :: t :: rest2) = s ++ '/' :: joinChars (t :: rest2) := rfl
      rw [hjoin, splitSlashChars_append s _ (h s (List.mem_cons_self s _))]
      have := ih (by simp) (fun u hu => h u (List.mem_cons_of_mem s hu))
      rw [this]

lemma string_mk_data (s : String) : String.mk s.data = s := rfl

lemma segOk_noslash {s : String} (h : segOk s = true) : ∀ c ∈ s.data, c ≠ '/' := by
  intro c hc
  have := List.all_eq_true.mp h c hc
  simpa using this

lemma splitSlash_joinSegs (L : List String) (hL : L ≠ [])
    (h : ∀ s ∈ L, segOk s = true) : splitSlash (joinSegs L) = L := by
  unfold splitSlash joinSegs
  have hmap : (L.map String.data) ≠ [] := by
    simpa using hL
  have hno : ∀ s ∈ L.map String.data, ∀ c ∈ s, c ≠ '/' := by
    intro s hs
    rcases List.mem_map.mp hs with ⟨t, ht, rfl⟩
    exact segOk_noslash (h t ht)
  rw [show (String.mk (joinChars (L.map String.data))).data
        = joinChars (L.map String.data) from rfl]
  rw [splitSlashChars_joinChars _ hmap hno, List.map_map]
  conv_rhs => rw [← List.map_id L]
  exact List.map_congr_left (fun s _ => string_mk_data s)

lemma okPath_segs {p : FPath} (hp : okPath p = true) :
    ∀ s ∈ p.dir ++ [p.name], segOk s = true := by
  unfold okPath at hp
  rcases (Bool.and_eq_true _ _).mp hp with ⟨hdir, hname⟩
  intro s hs
  rcases List.mem_append.mp hs with h | h
  · exact List.all_eq_true.mp hdir s h
  · simpa [List.mem_singleton.mp h] using hname

lemma splitSlash_posix {p : FPath} (hp : okPath p = true) :
    splitSlash p.posix = p.dir ++ [p.name] :=
  splitSlash_joinSegs _ (by simp) (okPath_segs hp)

lemma posix_inj {p q : FPath} (hp : okPath p = true) (hq : okPath q = true)
    (h : p.posix = q.posix) : p = q := by
  have h2 : p.dir ++ [p.name] = q.dir ++ [q.name] := by
    rw [← splitSlash_posix hp, ← splitSlash_posix hq, h]
  have h3 : p.dir = q.dir ∧ p.name = q.name := by
    have := (List.append_inj h2 ?_)
    · exact ⟨this.1, by simpa using this.2⟩
    · have := congrArg List.length h2
      simpa using this
  cases p; cases q
  simp_all

lemma posix_lastSeg {p : FPath} (hp : okPath p = true) :
    (splitSlash p.posix).getLastD "" = p.name := by
  rw [splitSlash_posix hp, List.getLastD_concat]

/-! ## Lemmas: the lexicographic string order -/

lemma lexLe_refl (a : List Char) : lexLe a a = true := by
  induction a with
  | nil => rfl
  | cons c as ih => simp [lexLe, lt_irrefl, ih]

lemma lexLe_total (a b : List Char) : lexLe a b = true ∨ lexLe b a = true := by
  induction a generalizing b with
  | nil => left; rfl
  | cons c as ih =>
    cases b with
    | nil => right; rfl
    | cons d bs =>
      rcases lt_trichotomy c d with h | h | h
      · left; simp [lexLe, h]
      · subst h
        rcases ih bs with h2 | h2
        · left; simp [lexLe, lt_irrefl, h2]
        · right; simp [lexLe, lt_irrefl, h2]
      · right; simp [lexLe, h]

lemma lexLe_trans {a b c : List Char} (hab : lexLe a b = true)
    (hbc : lexLe b c = true) : lexLe a c = true := by
  induction a generalizing b c with
  | nil => rfl
  | cons x as ih =>
    cases b with
    | nil => simp [lexLe] at hab
    | cons y bs =>
      cases c with
      | nil => simp [lexLe] at hbc
      | cons z cs =>
        rcases lt_trichotomy x y with h1 | h1 | h1
        · rcases lt_trichotomy y z with h2 | h2 | h2
          · simp [lexLe, lt_trans h1 h2]
          · subst h2; simp [lexLe, h1]
          · simp [lexLe, lt_asymm h2, h2] at hbc
        · subst h1
          rcases lt_trichotomy x z with h2 | h2 | h2
          · simp [lexLe, h2]
          · subst h2
            simp only [lexLe, lt_irrefl, if_false] at hab hbc ⊢
            exact ih hab hbc
          · simp [lexLe, lt_asymm h2, h2] at hbc
        · simp [lexLe, lt_asymm h1, h1] at hab

lemma lexLe_antisymm {a b : List Char} (hab : lexLe a b = true)
    (hba : lexLe b a = true) : a = b := by
  induction a generalizing b with
  | nil =>
    cases b with
    | nil => rfl
    | cons d bs => simp [lexLe] at hba
  | cons c as ih =>
    cases b with
    | nil => simp [lexLe] at hab
    | cons d bs =>
      rcases lt_trichotomy c d with h | h | h
      · simp [lexLe, lt_asymm h, h] at hba
      · subst h
        simp only [lexLe, lt_irrefl, if_false] at hab hba
        rw [ih hab hba]
      · simp [lexLe, lt_asymm h, h] at hab

lemma strLe_total (a b : String) : strLe a b = true ∨ strLe b a = true :=
  lexLe_total a.data b.data

lemma strLe_trans {a b c : String} (hab : strLe a b = true)
    (hbc : strLe b c = true) : strLe a c = true :=
  lexLe_trans hab hbc

lemma strLe_antisymm {a b : String} (hab : strLe a b = true)
    (hba : strLe b a = true) : a = b := by
  have h := lexLe_antisymm hab hba
  cases a; cases b
  exact congrArg String.mk h

/-! ## Lemmas: the two passes as filterMaps -/

lemma pass1_sound (T : List FSFile) :
    ∀ (L : List FSFile) (es : List Entry) (ws : List FPath),
      pass1 T L = some (es, ws) →
      es = L.filterMap (metaEmits T) ∧ ws = L.filterMap (warnEmits T) ∧
        ∀ m ∈ L, ¬ badMeta T m := by
  intro L
  induction L with
  | nil =>
    intro es ws h
    simp only [pass1, Option.some.injEq, Prod.mk.injEq] at h
    simp [← h.1, ← h.2]
  | cons m rest ih =>
    intro es ws h
    by_cases hm : isMetaName m.path.name = true
    · by_cases hex : existsIn T (companionFP m.path) = true
      · rcases hpar : m.parsed with _ | j
        · -- parse / read failure: a diagnostic
          have hpass : pass1 T (m :: rest)
              = (pass1 T rest).map (fun p => (p.1, m.path :: p.2)) := by
            simp [pass1, hm, hex, hpar]
          rw [hpass] at h
          rcases Option.map_eq_some'.mp h with ⟨⟨es2, ws2⟩, hrest, heq⟩
          obtain ⟨he, hw, hnb⟩ := ih es2 ws2 hrest
          simp only [Prod.mk.injEq] at heq
          constructor
          · rw [← heq.1, he]
            simp [List.filterMap_cons, metaEmits, hm, hex, hpar]
          constructor
          · rw [← heq.2, hw]
            simp [List.filterMap_cons, warnEmits, hm, hex, hpar]
          · intro m2 hm2
            rcases List.mem_cons.mp hm2 with rfl | hm3
            · intro hbad
              rcases hbad.2.2 with ⟨j, hj, _⟩
              rw [hpar] at hj
              exact Option.noConfusion hj
            · exact hnb m2 hm3
        · cases j with
          | obj o =>
            have hpass : pass1 T (m :: rest)
                = (pass1 T rest).map
                    (fun p => (buildMetaEntry (companionFP m.path) m.path o :: p.1,
                               p.2)) := by
              simp [pass1, hm, hex, hpar]
            rw [hpass] at h
            rcases Option.map_eq_some'.mp h with ⟨⟨es2, ws2⟩, hrest, heq⟩
            obtain ⟨he, hw, hnb⟩ := ih es2 ws2 hrest
            simp only [Prod.mk.injEq] at heq
            constructor
            · rw [← heq.1, he]
              simp [List.filterMap_cons, metaEmits, hm, hex, hpar]
            constructor
            · rw [← heq.2, hw]
              simp [List.filterMap_cons, warnEmits, hm, hex, hpar]
            · intro m2 hm2
              rcases List.mem_cons.mp hm2 with rfl | hm3
              · intro hbad
                rcases hbad.2.2 with ⟨j, hj, hno⟩
                rw [hpar] at hj
                exact hno o (Option.some_inj.mp hj).symm
              · exact hnb m2 hm3
          | null =>
            exfalso; revert h; simp [pass1, hm, hex, hpar]
          | bool b =>
            exfalso; revert h; simp [pass1, hm, hex, hpar]
          | num n =>
            exfalso; revert h; simp [pass1, hm, hex, hpar]
          | str s =>
            exfalso; revert h; simp [pass1, hm, hex, hpar]
          | arr elems =>
            exfalso; revert h; simp [pass1, hm, hex, hpar]
      · have hpass : pass1 T (m :: rest) = pass1 T rest := by
          simp [pass1, hm, hex]
        rw [hpass] at h
        obtain ⟨he, hw, hnb⟩ := ih es ws h
        refine ⟨?_, ?_, ?_⟩
        · rw [he]; simp [List.filterMap_cons, metaEmits, hm, hex]
        · rw [hw]; simp [List.filterMap_cons, warnEmits, hm, hex]
        · intro m2 hm2
          rcases List.mem_cons.mp hm2 with rfl | hm3
          · intro hbad; exact absurd hbad.2.1 (by simp [hex])
          · exact hnb m2 hm3
    · have hpass : pass1 T (m :: rest) = pass1 T rest := by
        simp [pass1, hm]
      rw [hpass] at h
      obtain ⟨he, hw, hnb⟩ := ih es ws h
      refine ⟨?_, ?_, ?_⟩
      · rw [he]; simp [List.filterMap_cons, metaEmits, hm]
      · rw [hw]; simp [List.filterMap_cons, warnEmits, hm]
      · intro m2 hm2
        rcases List.mem_cons.mp hm2 with rfl | hm3
        · intro hbad; exact absurd hbad.1 hm
        · exact hnb m2 hm3

lemma pass2_eq (T : List FSFile) :
    ∀ L : List FSFile, pass2 T L = L.filterMap (fbEmits T) := by
  intro L
  induction L with
  | nil => rfl
  | cons f rest ih =>
    by_cases hc : isCsvName f.path.name = true
    · by_cases hex : existsIn T (sidecarFP f.path) = true
      · simp [pass2, List.filterMap_cons, fbEmits, hc, hex, ih]
      · simp [pass2, List.filterMap_cons, fbEmits, hc, hex, ih]
    · simp [pass2, List.filterMap_cons, fbEmits, hc, ih]

lemma rebuild_some_eq {now : String} {T : List FSFile} {cat : Catalog}
    {ws : List FPath} (h : rebuild_catalog now T = some (cat, ws)) :
    cat.schema_version = "1.0" ∧ cat.generated_at = now ∧
      cat.datasets = sortEntries (allEmits T) ∧
      cat.total_datasets = (allEmits T).length ∧
      ws = T.filterMap (warnEmits T) ∧ ∀ m ∈ T, ¬ badMeta T m := by
  unfold rebuild_catalog at h
  rcases hp : pass1 T T with _ | ⟨es, ws2⟩
  · rw [hp] at h; exact Option.noConfusion h
  · rw [hp] at h
    simp only [Option.some.injEq, Prod.mk.injEq] at h
    obtain ⟨he, hw, hnb⟩ := pass1_sound T T es ws2 hp
    obtain ⟨hcat, hws⟩ := h
    rw [← hcat, ← hws]
    refine ⟨rfl, rfl, ?_, ?_, ⟨hw, hnb⟩⟩
    · simp [allEmits, ← he, ← pass2_eq T T]
    · simp [allEmits, ← he, ← pass2_eq T T]

/-! ## Lemmas: the stable sort -/

lemma insertEntry_perm (e : Entry) (l : List Entry) :
    (insertEntry e l).Perm (e :: l) := by
  induction l with
  | nil => exact List.Perm.refl _
  | cons x xs ih =>
    by_cases h : strLe e.csv_path x.csv_path = true
    · simp only [insertEntry, h, if_true]
      exact List.Perm.refl _
    · simp only [insertEntry, h, if_false]
      exact (ih.cons x).trans (List.Perm.swap e x xs)

lemma sortEntries_perm (l : List Entry) : (sortEntries l).Perm l := by
  induction l with
  | nil => exact List.Perm.refl _
  | cons e es ih =>
    exact (insertEntry_perm e (sortEntries es)).trans (ih.cons e)

lemma mem_insertEntry {a e : Entry} {l : List Entry} :
    a ∈ insertEntry e l ↔ a = e ∨ a ∈ l := by
  rw [(insertEntry_perm e l).mem_iff]
  simp

lemma insertEntry_pairwise (e : Entry) {l : List Entry}
    (h : l.Pairwise entryLe) : (insertEntry e l).Pairwise entryLe := by
  induction l with
  | nil => simp [insertEntry, entryLe]
  | cons x xs ih =>
    rcases List.pairwise_cons.mp h with ⟨hx, hxs⟩
    by_cases hle : strLe e.csv_path x.csv_path = true
    · simp only [insertEntry, hle, if_true]
      refine List.pairwise_cons.mpr ⟨?_, h⟩
      intro b hb
      rcases List.mem_cons.mp hb with rfl | hb2
      · exact hle
      · exact strLe_trans hle (hx b hb2)
    · simp only [insertEntry, hle, if_false]
      refine List.pairwise_cons.mpr ⟨?_, ih hxs⟩
      intro b hb
      rcases mem_insertEntry.mp hb with rfl | hb2
      · rcases strLe_total b.csv_path x.csv_path with h2 | h2
        · exact absurd h2 hle
        · exact h2
      · exact hx b hb2

lemma sortEntries_pairwise (l : List Entry) :
    (sortEntries l).Pairwise entryLe := by
  induction l with
  | nil => simp [sortEntries]
  | cons e es ih => exact insertEntry_pairwise e ih

/-- A list sorted by `csv_path` whose keys are pairwise distinct is the
unique sorted arrangement of its elements. -/
lemma sorted_nodup_unique :
    ∀ (l1 l2 : List Entry), l1.Perm l2 → l1.Pairwise entryLe →
      l2.Pairwise entryLe → (l1.map Entry.csv_path).Nodup → l1 = l2 := by
  intro l1
  induction l1 with
  | nil =>
    intro l2 hp _ _ _
    exact hp.nil_eq
  | cons x t ih =>
    intro l2 hp hs1 hs2 hnd
    cases l2 with
    | nil =>
      have := hp.length_eq
      simp at this
    | cons y t2 =>
      have hnd2 : ¬ x.csv_path ∈ t.map Entry.csv_path ∧
          (t.map Entry.csv_path).Nodup := by
        have : (x.csv_path :: t.map Entry.csv_path).Nodup := by simpa using hnd
        exact List.nodup_cons.mp this
      by_cases hxy : x = y
      · subst hxy
        have hperm2 : t.Perm t2 := hp.cons_inv
        have := ih t2 hperm2 (List.pairwise_cons.mp hs1).2
          (List.pairwise_cons.mp hs2).2 hnd2.2
        rw [this]
      · exfalso
        have hx2 : x ∈ y :: t2 := hp.mem_iff.mp (List.mem_cons_self x t)
        have hxt2 : x ∈ t2 := by
          rcases List.mem_cons.mp hx2 with h | h
          · exact absurd h hxy
          · exact h
        have hy1 : y ∈ x :: t := hp.mem_iff.mpr (List.mem_cons_self y t2)
        have hyt : y ∈ t := by
          rcases List.mem_cons.mp hy1 with h | h
          · exact absurd h.symm hxy
          · exact h
        have h1 : entryLe x y := (List.pairwise_cons.mp hs1).1 y hyt
        have h2 : entryLe y x := (List.pairwise_cons.mp hs2).1 x hxt2
        have hkey : x.csv_path = y.csv_path := strLe_antisymm h1 h2
        exact hnd2.1 (hkey ▸ List.mem_map_of_mem Entry.csv_path hyt)

/-! ## Lemmas: hypotheses unpacked to members -/

lemma existsIn_iff {T : List FSFile} {p : FPath} :
    existsIn T p = true ↔ ∃ g ∈ T, g.path = p := by
  simp [existsIn, List.any_eq_true]

lemma wfTree_okPath {T : List FSFile} (hwf : wfTree T = true) {f : FSFile}
    (hf : f ∈ T) : okPath f.path = true :=
  List.all_eq_true.mp hwf f hf

lemma goodNames_csv {T : List FSFile} (hgd : goodNames T = true) {f : FSFile}
    (hf : f ∈ T) (hcsv : isCsvName f.path.name = true) :
    isMetaName (csvToMetaName f.path.name) = true ∧
      metaToCsvName (csvToMetaName f.path.name) = f.path.name := by
  have h := (Bool.and_eq_true _ _).mp (List.all_eq_true.mp hgd f hf)
  have h1 := h.1
  unfold goodCsvName at h1
  rw [hcsv] at h1
  simp at h1
  exact h1

lemma goodNames_meta {T : List FSFile} (hgd : goodNames T = true) {m : FSFile}
    (hm : m ∈ T) (hmeta : isMetaName m.path.name = true) :
    isCsvName (metaToCsvName m.path.name) = true ∧
      csvToMetaName (metaToCsvName m.path.name) = m.path.name := by
  have h := (Bool.and_eq_true _ _).mp (List.all_eq_true.mp hgd m hm)
  have h2 := h.2
  unfold goodMetaName at h2
  rw [hmeta] at h2
  simp at h2
  exact h2

lemma fpath_eta (p : FPath) : ({ dir := p.dir, name := p.name } : FPath) = p := rfl

/-- Under the round-trip hypothesis, the sidecar the fallback pass derives
for a CSV derives the CSV back as its companion. -/
lemma companionFP_sidecarFP {T : List FSFile} (hgd : goodNames T = true)
    {f : FSFile} (hf : f ∈ T) (hcsv : isCsvName f.path.name = true) :
    companionFP (sidecarFP f.path) = f.path := by
  unfold companionFP sidecarFP FPath.withName
  simp only
  rw [(goodNames_csv hgd hf hcsv).2]

/-! ## Lemmas: characterizing the emission functions -/

lemma metaEmits_eq_some_iff {T : List FSFile} {m : FSFile} {e : Entry} :
    metaEmits T m = some e ↔
      isMetaName m.path.name = true ∧ existsIn T (companionFP m.path) = true ∧
        ∃ o, m.parsed = some (Json.obj o) ∧
          e = buildMetaEntry (companionFP m.path) m.path o := by
  unfold metaEmits
  by_cases hm : isMetaName m.path.name = true
  · by_cases hex : existsIn T (companionFP m.path) = true
    · rcases hpar : m.parsed with _ | j
      · simp [hm, hex, hpar]
      · cases j <;> simp [hm, hex, hpar, eq_comm]
    · simp [hm, hex]
  · simp [hm]

lemma fbEmits_eq_some_iff {T : List FSFile} {f : FSFile} {e : Entry} :
    fbEmits T f = some e ↔
      isCsvName f.path.name = true ∧ existsIn T (sidecarFP f.path) = false ∧
        e = buildFallbackEntry f.path := by
  unfold fbEmits
  by_cases hc : isCsvName f.path.name = true
  · by_cases hex : existsIn T (sidecarFP f.path) = true
    · simp [hc, hex]
    · simp [hc, hex, eq_comm, Bool.eq_false_iff]
  · simp [hc]

lemma warnEmits_eq_some_iff {T : List FSFile} {m : FSFile} {p : FPath} :
    warnEmits T m = some p ↔
      isMetaName m.path.name = true ∧ existsIn T (companionFP m.path) = true ∧
        m.parsed = none ∧ p = m.path := by
  unfold warnEmits
  by_cases hm : isMetaName m.path.name = true
  · by_cases hex : existsIn T (companionFP m.path) = true
    · rcases hpar : m.parsed with _ | j
      · simp [hm, hex, hpar, eq_comm]
      · simp [hm, hex, hpar]
    · simp [hm, hex]
  · simp [hm]

lemma buildMetaEntry_csv_path (c mp : FPath) (o : List (String × Json)) :
    (buildMetaEntry c mp o).csv_path = c.posix := rfl

lemma buildMetaEntry_has_metadata (c mp : FPath) (o : List (String × Json)) :
    (buildMetaEntry c mp o).has_metadata = true := rfl

lemma buildMetaEntry_metadata_path (c mp : FPath) (o : List (String × Json)) :
    (buildMetaEntry c mp o).metadata_path = some mp.posix := rfl

lemma buildFallbackEntry_csv_path (p : FPath) :
    (buildFallbackEntry p).csv_path = p.posix := rfl

lemma buildFallbackEntry_has_metadata (p : FPath) :
    (buildFallbackEntry p).has_metadata = false := rfl

lemma buildFallbackEntry_metadata_path (p : FPath) :
    (buildFallbackEntry p).metadata_path = none := rfl

/-- Membership in the produced `datasets` list, traced back to the file that
emitted the entry. -/
lemma mem_datasets_iff {now : String} {T : List FSFile} {cat : Catalog}
    {ws : List FPath} (h : rebuild_catalog now T = some (cat, ws)) {e : Entry} :
    e ∈ cat.datasets ↔
      (∃ m ∈ T, metaEmits T m = some e) ∨ ∃ g ∈ T, fbEmits T g = some e := by
  rw [(rebuild_some_eq h).2.2.1, (sortEntries_perm _).mem_iff]
  simp [allEmits, List.mem_append, List.mem_filterMap]

/-! ## Lemmas: counting entries per csv_path -/

lemma countP_path_eq_one {T : List FSFile} (hnd : pathsNodup T) {u : FSFile}
    (hu : u ∈ T) : T.countP (fun a => decide (a.path = u.path)) = 1 := by
  have h1 : T.countP (fun a => decide (a.path = u.path))
      = (T.map (fun a => a.path)).countP (fun q => decide (q = u.path)) := by
    rw [List.countP_map]; rfl
  have h2 : (T.map (fun a => a.path)).countP (fun q => decide (q = u.path))
      = (T.map (fun a => a.path)).count u.path := by
    rw [List.count_eq_countP]
    apply List.countP_congr
    intro x _
    simp
  rw [h1, h2]
  exact List.count_eq_one_of_mem hnd (List.mem_map_of_mem _ hu)

lemma sidecar_file_is_meta {T : List FSFile} (hgd : goodNames T = true)
    {f : FSFile} (hf : f ∈ T) (hcsv : isCsvName f.path.name = true)
    {u : FSFile} (hup : u.path = sidecarFP f.path) :
    isMetaName u.path.name = true := by
  rw [hup]
  exact (goodNames_csv hgd hf hcsv).1

lemma sidecar_file_companion {T : List FSFile} (hgd : goodNames T = true)
    {f : FSFile} (hf : f ∈ T) (hcsv : isCsvName f.path.name = true)
    {u : FSFile} (hup : u.path = sidecarFP f.path) :
    companionFP u.path = f.path := by
  rw [hup]
  exact companionFP_sidecarFP hgd hf hcsv

/-- An entry the metadata pass emits with key `f.path.posix` can only come
from the sidecar path derived from `f`, holding a parsed JSON object. -/
lemma metaEmits_key_inv {T : List FSFile} (hwf : wfTree T = true)
    (hgd : goodNames T = true) {f : FSFile} (hf : f ∈ T)
    (_hcsv : isCsvName f.path.name = true) {a : FSFile} (ha : a ∈ T) {e : Entry}
    (hme : metaEmits T a = some e) (hkey : e.csv_path = f.path.posix) :
    a.path = sidecarFP f.path ∧ ∃ o, a.parsed = some (Json.obj o) := by
  rcases metaEmits_eq_some_iff.mp hme with ⟨hm, hex, o, hpar, he⟩
  rcases existsIn_iff.mp hex with ⟨g, hg, hgp⟩
  have hokg : okPath (companionFP a.path) = true := hgp ▸ wfTree_okPath hwf hg
  have hokf : okPath f.path = true := wfTree_okPath hwf hf
  have hcomp : companionFP a.path = f.path := by
    apply posix_inj hokg hokf
    rw [← buildMetaEntry_csv_path (companionFP a.path) a.path o, ← he, hkey]
  have hname : metaToCsvName a.path.name = f.path.name := by
    have h := congrArg FPath.name hcomp
    simpa [companionFP, FPath.withName] using h
  have hdir : a.path.dir = f.path.dir := by
    have h := congrArg FPath.dir hcomp
    simpa [companionFP, FPath.withName] using h
  refine ⟨?_, o, hpar⟩
  have hn : a.path.name = csvToMetaName f.path.name := by
    rw [← (goodNames_meta hgd ha hm).2, hname]
  unfold sidecarFP FPath.withName
  rw [← hdir, ← hn]

/-- The file sitting at the derived sidecar path with an object-parsing
text emits exactly the metadata entry for `f`. -/
lemma metaEmits_at_sidecar {T : List FSFile} (hgd : goodNames T = true)
    {f : FSFile} (hf : f ∈ T) (hcsv : isCsvName f.path.name = true)
    {a : FSFile} (_ha : a ∈ T) (hap : a.path = sidecarFP f.path)
    {o : List (String × Json)} (hao : a.parsed = some (Json.obj o)) :
    metaEmits T a = some (buildMetaEntry f.path a.path o) := by
  have hmn : isMetaName a.path.name = true := sidecar_file_is_meta hgd hf hcsv hap
  have hcomp : companionFP a.path = f.path := sidecar_file_companion hgd hf hcsv hap
  have hex : existsIn T (companionFP a.path) = true := by
    rw [hcomp]
    exact existsIn_iff.mpr ⟨f, hf, rfl⟩
  exact metaEmits_eq_some_iff.mpr ⟨hmn, hex, o, hao, by rw [hcomp]⟩

/-- Metadata-pass key count: exactly one when the derived sidecar is
present and parses to an object. -/
lemma meta_count_one {T : List FSFile} (hwf : wfTree T = true)
    (hnd : pathsNodup T) (hgd : goodNames T = true) {f : FSFile} (hf : f ∈ T)
    (hcsv : isCsvName f.path.name = true) {u : FSFile} (hu : u ∈ T)
    (hup : u.path = sidecarFP f.path) {o : List (String × Json)}
    (huo : u.parsed = some (Json.obj o)) :
    (T.filterMap (metaEmits T)).countP
      (fun e => decide (e.csv_path = f.path.posix)) = 1 := by
  rw [List.countP_filterMap]
  have hcong : ∀ a ∈ T,
      ((Option.map (fun e => decide (e.csv_path = f.path.posix))
        (metaEmits T a)).getD false) = true
        ↔ decide (a.path = u.path) = true := by
    intro a ha
    constructor
    · intro htrue
      rcases hme : metaEmits T a with _ | e
      · rw [hme] at htrue; simp at htrue
      · rw [hme] at htrue
        simp only [Option.map_some', Option.getD_some, decide_eq_true_eq] at htrue
        have h := metaEmits_key_inv hwf hgd hf hcsv ha hme htrue
        simp [h.1, hup]
    · intro haeq
      simp only [decide_eq_true_eq] at haeq
      have hau : a = u := List.inj_on_of_nodup_map hnd ha hu haeq
      subst hau
      rw [metaEmits_at_sidecar hgd hf hcsv ha hup huo]
      simp [buildMetaEntry_csv_path]
  rw [List.countP_congr hcong]
  exact countP_path_eq_one hnd hu

/-- Metadata-pass key count: zero when no file at the derived sidecar path
parses to an object. -/
lemma meta_count_zero {T : List FSFile} (hwf : wfTree T = true)
    (hgd : goodNames T = true) {f : FSFile} (hf : f ∈ T)
    (hcsv : isCsvName f.path.name = true)
    (hnone : ∀ a ∈ T, a.path = sidecarFP f.path →
      ¬ ∃ o, a.parsed = some (Json.obj o)) :
    (T.filterMap (metaEmits T)).countP
      (fun e => decide (e.csv_path = f.path.posix)) = 0 := by
  rw [List.countP_filterMap]
  apply List.countP_eq_zero.mpr
  intro a ha htrue
  rcases hme : metaEmits T a with _ | e
  · rw [hme] at htrue; simp at htrue
  · rw [hme] at htrue
    simp only [Option.map_some', Option.getD_some, decide_eq_true_eq] at htrue
    have h := metaEmits_key_inv hwf hgd hf hcsv ha hme htrue
    exact hnone a ha h.1 h.2

/-- Fallback-pass key count: zero when the derived sidecar path exists. -/
lemma fb_count_zero {T : List FSFile} (hwf : wfTree T = true) {f : FSFile}
    (hf : f ∈ T) (hex : existsIn T (sidecarFP f.path) = true) :
    (T.filterMap (fbEmits T)).countP
      (fun e => decide (e.csv_path = f.path.posix)) = 0 := by
  rw [List.countP_filterMap]
  apply List.countP_eq_zero.mpr
  intro a ha htrue
  rcases hfb : fbEmits T a with _ | e
  · rw [hfb] at htrue; simp at htrue
  · rw [hfb] at htrue
    simp only [Option.map_some', Option.getD_some, decide_eq_true_eq] at htrue
    rcases fbEmits_eq_some_iff.mp hfb with ⟨hc, hnex, he⟩
    have hpp : a.path.posix = f.path.posix := by
      rw [← buildFallbackEntry_csv_path a.path, ← he, htrue]
    have hap : a.path = f.path :=
      posix_inj (wfTree_okPath hwf ha) (wfTree_okPath hwf hf) hpp
    rw [hap, hex] at hnex
    exact Bool.noConfusion hnex

/-- Fallback-pass key count: exactly one when the derived sidecar path does
not exist. -/
lemma fb_count_one {T : List FSFile} (hwf : wfTree T = true)
    (hnd : pathsNodup T) {f : FSFile} (hf : f ∈ T)
    (hcsv : isCsvName f.path.name = true)
    (hnex : existsIn T (sidecarFP f.path) = false) :
    (T.filterMap (fbEmits T)).countP
      (fun e => decide (e.csv_path = f.path.posix)) = 1 := by
  rw [List.countP_filterMap]
  have hcong : ∀ a ∈ T,
      ((Option.map (fun e => decide (e.csv_path = f.path.posix))
        (fbEmits T a)).getD false) = true ↔ decide (a.path = f.path) = true := by
    intro a ha
    constructor
    · intro htrue
      rcases hfb : fbEmits T a with _ | e
      · rw [hfb] at htrue; simp at htrue
      · rw [hfb] at htrue
        simp only [Option.map_some', Option.getD_some, decide_eq_true_eq] at htrue
        rcases fbEmits_eq_some_iff.mp hfb with ⟨hc, _, he⟩
        have hpp : a.path.posix = f.path.posix := by
          rw [← buildFallbackEntry_csv_path a.path, ← he, htrue]
        simp [posix_inj (wfTree_okPath hwf ha) (wfTree_okPath hwf hf) hpp]
    · intro haeq
      simp only [decide_eq_true_eq] at haeq
      have hfb : fbEmits T a = some (buildFallbackEntry a.path) := by
        apply fbEmits_eq_some_iff.mpr
        refine ⟨?_, ?_, rfl⟩
        · rw [haeq]; exact hcsv
        · rw [haeq]; exact hnex
      rw [hfb]
      simp [buildFallbackEntry_csv_path, haeq]
  rw [List.countP_congr hcong]
  exact countP_path_eq_one hnd hf

/-- No key of the produced multiset repeats, given slash-free distinct
paths, round-tripping names, and the absence of crashing sidecars. -/
lemma allEmits_keys_nodup {T : List FSFile} (hwf : wfTree T = true)
    (hnd : pathsNodup T) (hgd : goodNames T = true)
    (hnb : ∀ m ∈ T, ¬ badMeta T m) :
    ((allEmits T).map Entry.csv_path).Nodup := by
  rw [List.nodup_iff_count_le_one]
  intro p
  have hcount : ((allEmits T).map Entry.csv_path).count p
      = (allEmits T).countP (fun e => decide (e.csv_path = p)) := by
    rw [List.count_eq_countP, List.countP_map]
    apply List.countP_congr
    intro e _
    simp
  rw [hcount]
  by_cases hcsvat : ∃ f ∈ T, isCsvName f.path.name = true ∧ f.path.posix = p
  · rcases hcsvat with ⟨f, hf, hcsv, rfl⟩
    by_cases hex : existsIn T (sidecarFP f.path) = true
    · rcases existsIn_iff.mp hex with ⟨u, hu, hup⟩
      by_cases hobj : ∃ o, u.parsed = some (Json.obj o)
      · rcases hobj with ⟨o, huo⟩
        rw [allEmits, List.countP_append,
          meta_count_one hwf hnd hgd hf hcsv hu hup huo,
          fb_count_zero hwf hf hex]
      · rcases hpar : u.parsed with _ | j
        · have hnone : ∀ a ∈ T, a.path = sidecarFP f.path →
              ¬ ∃ o, a.parsed = some (Json.obj o) := by
            intro a ha hap
            have hau : a = u :=
              List.inj_on_of_nodup_map hnd ha hu (by rw [hap, hup])
            subst hau
            exact fun hx => hobj hx
          rw [allEmits, List.countP_append,
            meta_count_zero hwf hgd hf hcsv hnone, fb_count_zero hwf hf hex]
          exact Nat.zero_le 1
        · exfalso
          apply hnb u hu
          refine ⟨sidecar_file_is_meta hgd hf hcsv hup, ?_, j, hpar, ?_⟩
          · rw [sidecar_file_companion hgd hf hcsv hup]
            exact existsIn_iff.mpr ⟨f, hf, rfl⟩
          · intro o ho
            exact hobj ⟨o, by rw [hpar, ho]⟩
    · have hnex : existsIn T (sidecarFP f.path) = false :=
        (Bool.not_eq_true _).mp hex
      have hnone : ∀ a ∈ T, a.path = sidecarFP f.path →
          ¬ ∃ o, a.parsed = some (Json.obj o) := by
        intro a ha hap _
        exact hex (existsIn_iff.mpr ⟨a, ha, hap⟩)
      rw [allEmits, List.countP_append,
        meta_count_zero hwf hgd hf hcsv hnone, fb_count_one hwf hnd hf hcsv hnex]
  · have hzero : (allEmits T).countP (fun e => decide (e.csv_path = p)) = 0 := by
      apply List.countP_eq_zero.mpr
      intro e he hkey
      simp only [decide_eq_true_eq] at hkey
      have he2 : (∃ a ∈ T, metaEmits T a = some e) ∨
          ∃ a ∈ T, fbEmits T a = some e := by
        simpa [allEmits, List.mem_append, List.mem_filterMap] using he
      rcases he2 with ⟨a, ha, hme⟩ | ⟨a, ha, hfb⟩
      · rcases metaEmits_eq_some_iff.mp hme with ⟨hmn, hexc, o, hpar, hee⟩
        rcases existsIn_iff.mp hexc with ⟨g, hg2, hgp⟩
        apply hcsvat
        refine ⟨g, hg2, ?_, ?_⟩
        · rw [hgp]
          exact (goodNames_meta hgd ha hmn).1
        · rw [hgp, ← buildMetaEntry_csv_path (companionFP a.path) a.path o,
            ← hee, hkey]
      · rcases fbEmits_eq_some_iff.mp hfb with ⟨hc, _, hee⟩
        apply hcsvat
        refine ⟨a, ha, hc, ?_⟩
        rw [← buildFallbackEntry_csv_path a.path, ← hee, hkey]
    rw [hzero]
    exact Nat.zero_le 1

/-- The length of `entriesFor` is the per-key count of the emitted
multiset. -/
lemma entriesFor_length {now : String} {T : List FSFile} {cat : Catalog}
    {ws : List FPath} (h : rebuild_catalog now T = some (cat, ws))
    (p : String) :
    (entriesFor cat p).length
      = (allEmits T).countP (fun e => decide (e.csv_path = p)) := by
  unfold entriesFor
  rw [← List.countP_eq_length_filter, (rebuild_some_eq h).2.2.1]
  exact (sortEntries_perm _).countP_eq _

lemma mem_entriesFor {cat : Catalog} {p : String} {e : Entry} :
    e ∈ entriesFor cat p ↔ e ∈ cat.datasets ∧ e.csv_path = p := by
  simp [entriesFor, List.mem_filter]

/-! ## Lemmas: the year-month regex against the claim's wording -/

lemma bool_eq_of_iff {a b : Bool} (h : a = true ↔ b = true) : a = b := by
  cases a <;> cases b <;> simp_all

lemma matchDigits_some : ∀ (n : Nat) (cs rest : List Char),
    matchDigits n cs = some rest ↔
      ∃ ds, cs = ds ++ rest ∧ ds.length = n ∧ ∀ c ∈ ds, c.isDigit = true := by
  intro n
  induction n with
  | zero =>
    intro cs rest
    simp only [matchDigits, Option.some_inj]
    constructor
    · intro h
      exact ⟨[], by simp [h]⟩
    · rintro ⟨ds, h1, h2, _⟩
      rw [List.length_eq_zero.mp h2] at h1
      simpa using h1
  | succ n ih =>
    intro cs rest
    cases cs with
    | nil =>
      simp only [matchDigits]
      constructor
      · intro h; exact Option.noConfusion h
      · rintro ⟨ds, h1, h2, _⟩
        rcases List.append_eq_nil.mp h1.symm with ⟨rfl, _⟩
        simp at h2
    | cons c cs2 =>
      by_cases hc : c.isDigit = true
      · rw [show matchDigits (n + 1) (c :: cs2) = matchDigits n cs2 from by
          simp [matchDigits, hc]]
        rw [ih cs2 rest]
        constructor
        · rintro ⟨ds, h1, h2, h3⟩
          refine ⟨c :: ds, by simp [h1], by simp [h2], ?_⟩
          intro x hx
          rcases List.mem_cons.mp hx with rfl | hx2
          · exact hc
          · exact h3 x hx2
        · rintro ⟨ds, h1, h2, h3⟩
          cases ds with
          | nil => simp at h2
          | cons d ds2 =>
            have heads : c = d ∧ cs2 = ds2 ++ rest := by simpa using h1
            refine ⟨ds2, heads.2, by simpa using h2, ?_⟩
            intro x hx
            exact h3 x (List.mem_cons_of_mem d hx)
      · rw [show matchDigits (n + 1) (c :: cs2) = none from by
          simp [matchDigits, hc]]
        constructor
        · intro h; exact Option.noConfusion h
        · rintro ⟨ds, h1, h2, h3⟩
          cases ds with
          | nil => simp at h2
          | cons d ds2 =>
            have heads : c = d ∧ cs2 = ds2 ++ rest := by simpa using h1
            exact absurd (by rw [heads.1]; exact h3 d (List.mem_cons_self d ds2))
              hc

lemma dollarAnchor_iff (cs : List Char) :
    dollarAnchor cs = true ↔ cs = [] ∨ cs = ['\n'] := by
  match cs with
  | [] => simp [dollarAnchor]
  | [c] => simp [dollarAnchor]
  | c1 :: c2 :: rest => simp [dollarAnchor]

/-- The shape the script's regex accepts. -/
lemma reMatchYM_iff (s : String) :
    reMatchYM s = true ↔
      ∃ a b c d e f, (∀ x ∈ [a, b, c, d, e, f], x.isDigit = true) ∧
        (s.data = [a, b, c, d, '-', e, f] ∨
          s.data = [a, b, c, d, '-', e, f, '\n']) := by
  constructor
  · intro h
    unfold reMatchYM at h
    split at h
    · exact Bool.noConfusion h
    · next rest heq4 =>
      split at h
      · next r rest2 =>
        split at h
        · next hr =>
          subst hr
          split at h
          · exact Bool.noConfusion h
          · next rest3 heq2 =>
            rcases matchDigits_some 4 s.data _ |>.mp heq4 with ⟨ds4, hs4, hl4, hd4⟩
            rcases matchDigits_some 2 rest2 rest3 |>.mp heq2 with ⟨ds2, hs2, hl2, hd2⟩
            rcases ds4 with _ | ⟨a, _ | ⟨b, _ | ⟨c, _ | ⟨d, _ | ⟨x, t⟩⟩⟩⟩⟩ <;>
              simp at hl4
            rcases ds2 with _ | ⟨e, _ | ⟨f, _ | ⟨y, t2⟩⟩⟩ <;> simp at hl2
            refine ⟨a, b, c, d, e, f, ?_, ?_⟩
            · intro x hx
              simp only [List.mem_cons, List.not_mem_nil, or_false] at hx
              rcases hx with rfl | rfl | rfl | rfl | rfl | rfl
              · exact hd4 _ (by simp)
              · exact hd4 _ (by simp)
              · exact hd4 _ (by simp)
              · exact hd4 _ (by simp)
              · exact hd2 _ (by simp)
              · exact hd2 _ (by simp)
            · rcases (dollarAnchor_iff rest3).mp h with rfl | rfl
              · left; rw [hs4, hs2]; rfl
              · right; rw [hs4, hs2]; rfl
        · exact Bool.noConfusion h
      · exact Bool.noConfusion h
  · rintro ⟨a, b, c, d, e, f, hdig, hshape⟩
    have ha := hdig a (by simp)
    have hb := hdig b (by simp)
    have hc := hdig c (by simp)
    have hd := hdig d (by simp)
    have he := hdig e (by simp)
    have hf := hdig f (by simp)
    rcases hshape with hs | hs <;>
      simp [reMatchYM, hs, matchDigits, ha, hb, hc, hd, he, hf, dollarAnchor]

/-- The shape the claim's exact pattern accepts. -/
lemma specYM_iff (s : String) :
    specYM s = true ↔
      ∃ a b c d e f, (∀ x ∈ [a, b, c, d, e, f], x.isDigit = true) ∧
        s.data = [a, b, c, d, '-', e, f] := by
  unfold specYM
  split
  · next a b c d x e f heq =>
    constructor
    · intro h
      simp only [Bool.and_eq_true, decide_eq_true_eq] at h
      obtain ⟨⟨⟨⟨⟨⟨ha, hb⟩, hc⟩, hd⟩, hx⟩, he⟩, hf⟩ := h
      refine ⟨a, b, c, d, e, f, ?_, by rw [heq, hx]⟩
      intro z hz
      simp only [List.mem_cons, List.not_mem_nil, or_false] at hz
      rcases hz with rfl | rfl | rfl | rfl | rfl | rfl <;> assumption
    · rintro ⟨a2, b2, c2, d2, e2, f2, hdig, hshape⟩
      rw [heq] at hshape
      injection hshape with e1 hshape
      injection hshape with e2' hshape
      injection hshape with e3 hshape
      injection hshape with e4 hshape
      injection hshape with e5 hshape
      injection hshape with e6 hshape
      injection hshape with e7 _
      subst e1; subst e2'; subst e3; subst e4; subst e5; subst e6; subst e7
      have ha := hdig a (by simp)
      have hb := hdig b (by simp)
      have hc := hdig c (by simp)
      have hd := hdig d (by simp)
      have he := hdig e (by simp)
      have hf := hdig f (by simp)
      simp [ha, hb, hc, hd, he, hf]
  · next hno =>
    constructor
    · intro h; exact Bool.noConfusion h
    · rintro ⟨a, b, c, d, e, f, _, hshape⟩
      exact absurd hshape (hno a b c d '-' e f)

/-- The claim's relaxed pattern accepts the same shapes as the regex. -/
lemma specYMRelaxed_iff (s : String) :
    specYMRelaxed s = true ↔
      ∃ a b c d e f, (∀ x ∈ [a, b, c, d, e, f], x.isDigit = true) ∧
        (s.data = [a, b, c, d, '-', e, f] ∨
          s.data = [a, b, c, d, '-', e, f, '\n']) := by
  unfold specYMRelaxed
  rw [Bool.or_eq_true]
  constructor
  · intro h
    rcases h with h | h
    · rcases (specYM_iff s).mp h with ⟨a, b, c, d, e, f, hdig, hshape⟩
      exact ⟨a, b, c, d, e, f, hdig, Or.inl hshape⟩
    · rcases hlast : s.data.getLast? with _ | c
      · rw [hlast] at h; exact Bool.noConfusion h
      · rw [hlast] at h
        rcases (Bool.and_eq_true _ _).mp h with ⟨hnl, hspec⟩
        rcases (specYM_iff _).mp hspec with ⟨a, b, c2, d, e, f, hdig, hshape⟩
        refine ⟨a, b, c2, d, e, f, hdig, Or.inr ?_⟩
        have hne : s.data ≠ [] := by
          intro hnil
          rw [hnil] at hlast
          exact Option.noConfusion hlast
        have hsplit : s.data.dropLast ++ [s.data.getLast hne] = s.data :=
          List.dropLast_append_getLast hne
        have hcval : s.data.getLast hne = c := by
          have := List.getLast?_eq_getLast s.data hne
          rw [hlast] at this
          exact (Option.some_inj.mp this).symm
        simp only [decide_eq_true_eq] at hnl
        rw [← hsplit, hcval, hnl]
        rw [show (String.mk s.data.dropLast).data = s.data.dropLast from rfl]
          at hshape
        rw [hshape]
        rfl
  · rintro ⟨a, b, c, d, e, f, hdig, hshape⟩
    rcases hshape with hs | hs
    · left
      exact (specYM_iff s).mpr ⟨a, b, c, d, e, f, hdig, hs⟩
    · right
      rw [hs]
      have hlast : ([a, b, c, d, '-', e, f, '\n'] : List Char).getLast?
          = some '\n' := rfl
      rw [hlast]
      simp only [decide_eq_true_eq]  -- hmm shape
      refine (Bool.and_eq_true _ _).mpr ⟨by simp, ?_⟩
      apply (specYM_iff _).mpr
      exact ⟨a, b, c, d, e, f, hdig, rfl⟩

/-- The script's regex test coincides with the claim's pattern relaxed by
one optional trailing newline. -/
lemma reMatchYM_eq_relaxed (s : String) : reMatchYM s = specYMRelaxed s :=
  bool_eq_of_iff ((reMatchYM_iff s).trans (specYMRelaxed_iff s).symm)

/-! ## Lemmas: the classifier against the claim's wording -/

lemma headD_reverse (l : List String) : l.reverse.headD "" = l.getLastD "" := by
  rw [List.headD_eq_head?, List.head?_reverse, List.getLastD_eq_getLast?]

lemma find?_eq_firstMatching (p : String → Bool) :
    ∀ l : List String, l.find? p = firstMatching p l := by
  intro l
  induction l with
  | nil => rfl
  | cons s rest ih =>
    by_cases hs : p s = true
    · simp [List.find?_cons, firstMatching, hs]
    · simp [List.find?_cons, firstMatching, hs, ih]

/-- The script's `_extract_path_components` agrees everywhere with the
claim's classifier, once the year-month pattern is relaxed by the optional
trailing newline Python's `$` tolerates. -/
lemma extract_eq_claimRelaxed (s : String) :
    extract_path_components s = claimClassifierRelaxed s := by
  simp only [extract_path_components, claimClassifierRelaxed, classifierOf,
    Prod.mk.injEq]
  refine ⟨?_, ?_, ?_⟩
  · -- thematic_name
    rcases hrev : (splitSlash s).reverse with _ | ⟨x, _ | ⟨parent, rest⟩⟩
    · have hnil : splitSlash s = [] := by
        have h2 := congrArg List.reverse hrev
        simpa using h2
      rw [hnil]
      simp
    · have hone : splitSlash s = [x] := by
        have h2 := congrArg List.reverse hrev
        simpa using h2
      rw [hone]
      simp
    · have heq : splitSlash s = rest.reverse ++ [parent, x] := by
        have h2 := congrArg List.reverse hrev
        rw [List.reverse_reverse] at h2
        rw [h2]
        simp
      rw [heq]
      have hlen : (rest.reverse ++ [parent, x]).length = rest.length + 2 := by
        simp
      have hget : (rest.reverse ++ [parent, x]).getD
          ((rest.reverse ++ [parent, x]).length - 2) "" = parent := by
        rw [hlen, List.getD_eq_getElem?_getD]
        have hidx : rest.length + 2 - 2 = rest.reverse.length + 0 := by simp
        rw [hidx, List.getElem?_append_right (by simp)]
        simp
      rw [if_pos (by rw [hlen]; exact Nat.le_add_left 2 rest.length), hget]
      rw [reMatchYM_eq_relaxed parent]
      by_cases hym : specYMRelaxed parent = true
      · simp [hym]
      · by_cases hdata : parent = "data"
        · simp [hym, hdata]
        · simp [hym, hdata]
  · -- year_month
    rw [show (fun part => reMatchYM part) = specYMRelaxed from
      funext reMatchYM_eq_relaxed]
    exact find?_eq_firstMatching specYMRelaxed (splitSlash s)
  · -- filename
    exact (headD_reverse (splitSlash s)).symm

/-! ## Lemmas: the source object -/

lemma lookupJ_append_none {k : String} {l1 : List (String × Json)}
    (h : lookupJ k l1 = none) (l2 : List (String × Json)) :
    lookupJ k (l1 ++ l2) = lookupJ k l2 := by
  induction l1 with
  | nil => rfl
  | cons kv rest ih =>
    obtain ⟨k2, v⟩ := kv
    by_cases hk : k2 = k
    · simp [lookupJ, hk] at h
    · simp only [lookupJ, hk, if_false, List.cons_append] at h ⊢
      exact ih h

/-- `source.import_type` is always a present key of the built source
object. -/
lemma buildSource_import_type (o : List (String × Json)) :
    ∃ v, lookupJ "import_type" (buildSource o) = some v := by
  unfold buildSource
  by_cases h : (lookupJ "import_type" (rawSource o)).isNone = true
  · rw [if_pos h]
    rw [lookupJ_append_none (Option.isNone_iff_eq_none.mp h)]
    exact ⟨Json.str "csv", rfl⟩
  · rw [if_neg h]
    rcases hl : lookupJ "import_type" (rawSource o) with _ | v
    · rw [hl] at h; simp at h
    · exact ⟨v, rfl⟩

/-! ## Lemmas: enumeration-order invariance -/

lemma existsIn_perm {T T2 : List FSFile} (hperm : T.Perm T2) (p : FPath) :
    existsIn T p = existsIn T2 p := by
  apply bool_eq_of_iff
  rw [existsIn_iff, existsIn_iff]
  constructor
  · rintro ⟨g, hg, hp⟩
    exact ⟨g, hperm.mem_iff.mp hg, hp⟩
  · rintro ⟨g, hg, hp⟩
    exact ⟨g, hperm.mem_iff.mpr hg, hp⟩

lemma metaEmits_congr_perm {T T2 : List FSFile} (hperm : T.Perm T2) :
    metaEmits T = metaEmits T2 := by
  funext m
  unfold metaEmits
  rw [existsIn_perm hperm]

lemma fbEmits_congr_perm {T T2 : List FSFile} (hperm : T.Perm T2) :
    fbEmits T = fbEmits T2 := by
  funext g
  unfold fbEmits
  rw [existsIn_perm hperm]

lemma allEmits_perm {T T2 : List FSFile} (hperm : T.Perm T2) :
    (allEmits T).Perm (allEmits T2) := by
  unfold allEmits
  apply List.Perm.append
  · rw [← metaEmits_congr_perm hperm]
    exact hperm.filterMap (metaEmits T)
  · rw [← fbEmits_congr_perm hperm]
    exact hperm.filterMap (fbEmits T)

/-! ## The claims -/

/-- Claim C1 (code bug, evaluated): the de-duplication contract fails.  On
the tree holding `data/a.csv.csv` and a valid sidecar `data/a.csv.meta.json`,
`str.replace` rewrites every occurrence of the pattern, so the metadata pass
pairs the sidecar with `data/a.csv.csv` while the fallback pass derives the
non-existent sidecar `data/a.meta.json.meta.json` for that same CSV and
emits a second entry: the `csv_path` value `"data/a.csv.csv"` appears twice
in `datasets`. -/
theorem claim_C1_duplicate_csv_path :
    (rebuild_catalog "ts" treeDup).map
        (fun r => r.1.datasets.countP
          (fun e => decide (e.csv_path = "data/a.csv.csv")))
      = some 2 := by decide

/-- Claim C2 (counterexample): "every CSV file under the data root appears
exactly once in `datasets`" fails.  `treeMalformed` holds the CSV
`data/x.csv` (and its sidecar, whose text does not parse), yet the catalog
contains zero entries for it — the metadata pass skips it with a
diagnostic and the fallback pass skips it because the sidecar file
exists. -/
theorem claim_C2_counterexample :
    (treeMalformed.map (fun f => f.path.posix))
        = ["data/x.csv", "data/x.meta.json"] ∧
      (rebuild_catalog "ts" treeMalformed).map
          (fun r => r.1.datasets.countP
            (fun e => decide (e.csv_path = "data/x.csv")))
        = some 0 := by decide

/-- Claim C3 (counterexample): a CSV whose derived sidecar exists but fails
to parse is promised a diagnostic, yet none is emitted here.  For
`data/a.meta.json.csv` the derived sidecar `data/a.meta.json.meta.json`
exists and fails to parse; but the metadata pass, replacing every
`".meta.json"` occurrence, derives companion `data/a.csv.csv` for that
sidecar, finds it absent and skips silently before parsing — so the
warning list is empty while the catalog still has no entry for the CSV. -/
theorem claim_C3_counterexample :
    existsIn treeVanish
        (sidecarFP { dir := ["data"], name := "a.meta.json.csv" }) = true ∧
      (∀ m ∈ treeVanish,
        m.path = sidecarFP { dir := ["data"], name := "a.meta.json.csv" } →
          m.parsed.isNone = true) ∧
      (rebuild_catalog "ts" treeVanish).map
          (fun r => (r.1.datasets.length, r.2)) = some (0, []) := by decide

/-- Claim C4 (counterexample): `source.import_type` is not always non-null.
A sidecar with `{"source": {"import_type": null}}` has the key present, so
the default is not injected and the entry carries `import_type = null`. -/
theorem claim_C4_counterexample :
    (rebuild_catalog "ts" treeNullImport).map
        (fun r => r.1.datasets.map (fun e => lookupJ "import_type" e.source))
      = some [some Json.null] := by rfl

/-- Claim C5 (counterexample): the classifier does not implement the
claim's exact pattern.  On the path `"2026-01\n/x.csv"` the script's
`re.match(r"^\d{4}-\d{2}$", ·)` accepts the segment `"2026-01\n"` (Python's
`$` matches before a trailing newline), so the code returns
`year_month = some "2026-01\n"` where the claim requires `none`. -/
theorem claim_C5_counterexample :
    extract_path_components "2026-01\n/x.csv"
      ≠ claimClassifier "2026-01\n/x.csv" := by decide

/-- Claim C5 (amended): the classifier agrees everywhere with the claim's
description once "matches exactly four digits, a hyphen, two digits" is
relaxed to "… optionally followed by one trailing newline" — for every
path, the returned filename, year-month and thematic name are exactly the
claim's. -/
theorem claim_C5_path_classifier (s : String) :
    extract_path_components s = claimClassifierRelaxed s :=
  extract_eq_claimRelaxed s

/-- Claim C6 (counterexample): the catalog is not independent of filesystem
enumeration order.  On `treeOrder` two sidecars derive the same companion
`data/a.csv.csv`; the stable sort keeps their enumeration order, so
scanning the same tree in reverse order permutes `datasets` (visible in the
`metadata_path` sequence) even at the same timestamp. -/
theorem claim_C6_counterexample :
    (rebuild_catalog "ts" treeOrder).map
        (fun r => r.1.datasets.map (fun e => e.metadata_path))
      ≠ (rebuild_catalog "ts" treeOrder.reverse).map
          (fun r => r.1.datasets.map (fun e => e.metadata_path)) := by decide

/-- Claim C4 (amended): in every entry of every produced catalog the source
object contains the key `import_type`; in fallback entries its value is the
string `"csv"` (the null value can only arise when the sidecar's own source
object explicitly maps `import_type` to null, whose value is copied — see
the counterexample). -/
theorem claim_C4_import_type_present (now : String) (T : List FSFile)
    (cat : Catalog) (ws : List FPath)
    (hr : rebuild_catalog now T = some (cat, ws)) :
    ∀ e ∈ cat.datasets,
      (∃ v, lookupJ "import_type" e.source = some v) ∧
        (e.has_metadata = false →
          lookupJ "import_type" e.source = some (Json.str "csv")) := by
  intro e he
  rcases (mem_datasets_iff hr).mp he with ⟨m, _, hme⟩ | ⟨g, _, hfb⟩
  · rcases metaEmits_eq_some_iff.mp hme with ⟨_, _, o, _, rfl⟩
    constructor
    · exact buildSource_import_type o
    · intro hfalse
      exact absurd hfalse (by simp [buildMetaEntry_has_metadata])
  · rcases fbEmits_eq_some_iff.mp hfb with ⟨_, _, rfl⟩
    exact ⟨⟨Json.str "csv", rfl⟩, fun _ => rfl⟩

/-- Witness for C4: on the one-file tree `treeBasic` the produced fallback
entry does carry `import_type = "csv"`. -/
theorem claim_C4_witness :
    (∃ v, lookupJ "import_type"
        (buildFallbackEntry { dir := ["data"], name := "a.csv" }).source
      = some v) ∧
      ((buildFallbackEntry { dir := ["data"], name := "a.csv" }).has_metadata
          = false →
        lookupJ "import_type"
            (buildFallbackEntry { dir := ["data"], name := "a.csv" }).source
          = some (Json.str "csv")) :=
  claim_C4_import_type_present "ts" treeBasic basicResult.1 basicResult.2 rfl
    (buildFallbackEntry { dir := ["data"], name := "a.csv" })
    (List.mem_cons_self _ _)

/-- Claim C8 (confirmed): in every produced catalog, `datasets` is pairwise
ascending in the lexicographic (code-point) order of the `csv_path` string,
and `total_datasets` equals the number of entries. -/
theorem claim_C8_sorted_and_counted (now : String) (T : List FSFile)
    (cat : Catalog) (ws : List FPath)
    (hr : rebuild_catalog now T = some (cat, ws)) :
    cat.datasets.Pairwise entryLe ∧
      cat.total_datasets = cat.datasets.length := by
  obtain ⟨_, _, hds, hlen, _, _⟩ := rebuild_some_eq hr
  constructor
  · rw [hds]
    exact sortEntries_pairwise _
  · rw [hds, hlen, (sortEntries_perm (allEmits T)).length_eq]

/-- Witness for C8 on the concrete tree `treeBasic`. -/
theorem claim_C8_witness :
    basicResult.1.datasets.Pairwise entryLe ∧
      basicResult.1.total_datasets = basicResult.1.datasets.length :=
  claim_C8_sorted_and_counted "ts" treeBasic basicResult.1 basicResult.2 rfl

/-- Claim C9 (confirmed): in every entry, `metadata_path` is null exactly
when `has_metadata` is false; and a metadata-mode entry carries the POSIX
path of the sidecar file (a `*.meta.json` file of the tree whose text
parsed to a JSON object). -/
theorem claim_C9_metadata_path_iff (now : String) (T : List FSFile)
    (cat : Catalog) (ws : List FPath)
    (hr : rebuild_catalog now T = some (cat, ws)) :
    ∀ e ∈ cat.datasets,
      (e.metadata_path = none ↔ e.has_metadata = false) ∧
        (e.has_metadata = true →
          ∃ m ∈ T, isMetaName m.path.name = true ∧
            (∃ o, m.parsed = some (Json.obj o)) ∧
            e.metadata_path = some m.path.posix) := by
  intro e he
  rcases (mem_datasets_iff hr).mp he with ⟨m, hm, hme⟩ | ⟨g, _, hfb⟩
  · rcases metaEmits_eq_some_iff.mp hme with ⟨hmn, _, o, hpar, rfl⟩
    refine ⟨by simp [buildMetaEntry_metadata_path, buildMetaEntry_has_metadata], ?_⟩
    intro _
    exact ⟨m, hm, hmn, ⟨o, hpar⟩, rfl⟩
  · rcases fbEmits_eq_some_iff.mp hfb with ⟨_, _, rfl⟩
    refine ⟨by simp [buildFallbackEntry_metadata_path,
      buildFallbackEntry_has_metadata], ?_⟩
    intro htrue
    exact absurd htrue (by simp [buildFallbackEntry_has_metadata])

/-- Witness for C9 on the concrete tree `treeMixed`, at its metadata-mode
entry. -/
theorem claim_C9_witness :
    ((buildMetaEntry (companionFP { dir := ["data"], name := "b.meta.json" })
          { dir := ["data"], name := "b.meta.json" }
          [("title", Json.str "T")]).metadata_path = none ↔
      (buildMetaEntry (companionFP { dir := ["data"], name := "b.meta.json" })
          { dir := ["data"], name := "b.meta.json" }
          [("title", Json.str "T")]).has_metadata = false) ∧
      ((buildMetaEntry (companionFP { dir := ["data"], name := "b.meta.json" })
            { dir := ["data"], name := "b.meta.json" }
            [("title", Json.str "T")]).has_metadata = true →
        ∃ m ∈ treeMixed, isMetaName m.path.name = true ∧
          (∃ o, m.parsed = some (Json.obj o)) ∧
          (buildMetaEntry (companionFP { dir := ["data"], name := "b.meta.json" })
              { dir := ["data"], name := "b.meta.json" }
              [("title", Json.str "T")]).metadata_path
            = some m.path.posix) :=
  claim_C9_metadata_path_iff "ts" treeMixed mixedResult.1 mixedResult.2 rfl
    (buildMetaEntry (companionFP { dir := ["data"], name := "b.meta.json" })
      { dir := ["data"], name := "b.meta.json" } [("title", Json.str "T")])
    (List.mem_cons_self _ _)

/-- Claim C10 (confirmed): every metadata-mode entry of a produced catalog
comes verbatim from `buildMetaEntry` on the sidecar's parsed object, and
that construction copies `title`, `description`, `tags`, `license` and
`created_at` unchanged whenever the key is present — whatever JSON value it
holds, with no type validation. -/
theorem claim_C10_verbatim_copy :
    (∀ (now : String) (T : List FSFile) (cat : Catalog) (ws : List FPath),
      rebuild_catalog now T = some (cat, ws) →
        ∀ e ∈ cat.datasets, e.has_metadata = true →
          ∃ m ∈ T, ∃ o, m.parsed = some (Json.obj o) ∧
            e = buildMetaEntry (companionFP m.path) m.path o) ∧
    (∀ (c mp : FPath) (o : List (String × Json)) (v : Json),
      (lookupJ "title" o = some v → (buildMetaEntry c mp o).title = v) ∧
      (lookupJ "description" o = some v →
        (buildMetaEntry c mp o).description = v) ∧
      (lookupJ "tags" o = some v → (buildMetaEntry c mp o).tags = v) ∧
      (lookupJ "license" o = some v → (buildMetaEntry c mp o).license = v) ∧
      (lookupJ "created_at" o = some v →
        (buildMetaEntry c mp o).created_at = v)) := by
  constructor
  · intro now T cat ws hr e he hmeta
    rcases (mem_datasets_iff hr).mp he with ⟨m, hm, hme⟩ | ⟨g, _, hfb⟩
    · rcases metaEmits_eq_some_iff.mp hme with ⟨_, _, o, hpar, rfl⟩
      exact ⟨m, hm, o, hpar, rfl⟩
    · rcases fbEmits_eq_some_iff.mp hfb with ⟨_, _, rfl⟩
      exact absurd hmeta (by simp [buildFallbackEntry_has_metadata])
  · intro c mp o v
    refine ⟨?_, ?_, ?_, ?_, ?_⟩ <;>
      · intro h
        show (Option.getD _ _) = v
        rw [h]
        rfl

/-- Witness for C10: a sidecar whose `tags` is the JSON number `5` produces
an entry whose `tags` equals that number unchanged. -/
theorem claim_C10_witness :
    (buildMetaEntry
        (companionFP { dir := ["data"], name := "x.meta.json" })
        { dir := ["data"], name := "x.meta.json" }
        [("tags", Json.num 5)]).tags = Json.num 5 :=
  (claim_C10_verbatim_copy.2
      (companionFP { dir := ["data"], name := "x.meta.json" })
      { dir := ["data"], name := "x.meta.json" }
      [("tags", Json.num 5)] (Json.num 5)).2.2.1 rfl

/-- Claim C7 (confirmed): the humanized default title.  The stem
`gdp-growth_rate` yields exactly `"Gdp Growth Rate"`; every fallback entry
titles itself with the humanized stem of its filename (hyphens and
underscores to spaces, then Python title-casing); and every metadata-mode
entry whose sidecar omits `title` does the same. -/
theorem claim_C7_title_humanization (now : String) (T : List FSFile)
    (cat : Catalog) (ws : List FPath) (hwf : wfTree T = true)
    (hnd : pathsNodup T) (hr : rebuild_catalog now T = some (cat, ws)) :
    humanizeStem "gdp-growth_rate" = "Gdp Growth Rate" ∧
    (∀ e ∈ cat.datasets, e.has_metadata = false →
      e.title
        = Json.str (humanizeStem (pyStem ((splitSlash e.csv_path).getLastD "")))) ∧
    (∀ m ∈ T, ∀ o, m.parsed = some (Json.obj o) → lookupJ "title" o = none →
      ∀ e ∈ cat.datasets, e.metadata_path = some m.path.posix →
        e.title
          = Json.str (humanizeStem (pyStem ((splitSlash e.csv_path).getLastD "")))) := by
  refine ⟨by decide, ?_, ?_⟩
  · intro e he hfalse
    rcases (mem_datasets_iff hr).mp he with ⟨m, _, hme⟩ | ⟨g, hg, hfb⟩
    · rcases metaEmits_eq_some_iff.mp hme with ⟨_, _, o, _, rfl⟩
      exact absurd hfalse (by simp [buildMetaEntry_has_metadata])
    · rcases fbEmits_eq_some_iff.mp hfb with ⟨_, _, rfl⟩
      have hlast : (splitSlash (buildFallbackEntry g.path).csv_path).getLastD ""
          = g.path.name := by
        rw [buildFallbackEntry_csv_path]
        exact posix_lastSeg (wfTree_okPath hwf hg)
      rw [hlast]
      rfl
  · intro m hm o hpar htitle e he hmp
    rcases (mem_datasets_iff hr).mp he with ⟨a, ha, hme⟩ | ⟨g, _, hfb⟩
    · rcases metaEmits_eq_some_iff.mp hme with ⟨hmn, hex, o2, hpar2, rfl⟩
      rw [buildMetaEntry_metadata_path] at hmp
      have hposix : a.path.posix = m.path.posix := Option.some_inj.mp hmp
      have hap : a.path = m.path :=
        posix_inj (wfTree_okPath hwf ha) (wfTree_okPath hwf hm) hposix
      have ham : a = m := List.inj_on_of_nodup_map hnd ha hm hap
      subst ham
      have ho : o = o2 := by
        rw [hpar] at hpar2
        have h2 := Option.some_inj.mp hpar2
        injection h2
      subst ho
      rcases existsIn_iff.mp hex with ⟨g, hg, hgp⟩
      have hok : okPath (companionFP a.path) = true :=
        hgp ▸ wfTree_okPath hwf hg
      have hlast : (splitSlash
            (buildMetaEntry (companionFP a.path) a.path o).csv_path).getLastD ""
          = (companionFP a.path).name := by
        rw [buildMetaEntry_csv_path]
        exact posix_lastSeg hok
      rw [hlast]
      show (Option.getD _ _) = _
      rw [htitle]
      rfl
    · rcases fbEmits_eq_some_iff.mp hfb with ⟨_, _, rfl⟩
      rw [buildFallbackEntry_metadata_path] at hmp
      exact Option.noConfusion hmp

/-- Witness for C7: the bare CSV `gdp-growth_rate.csv` gets the humanized
title. -/
theorem claim_C7_witness :
    (buildFallbackEntry
        { dir := ["data"], name := "gdp-growth_rate.csv" }).title
      = Json.str (humanizeStem (pyStem ((splitSlash
          (buildFallbackEntry
            { dir := ["data"], name := "gdp-growth_rate.csv" }).csv_path).getLastD
          ""))) :=
  (claim_C7_title_humanization "ts" treeGdp gdpResult.1 gdpResult.2
      (by decide) (by decide) rfl).2.1
    (buildFallbackEntry { dir := ["data"], name := "gdp-growth_rate.csv" })
    (List.mem_cons_self _ _) rfl

/-- Claim C2 (amended): on trees whose filenames round-trip under the
sidecar/CSV suffix surgery (no interior `".csv"`/`".meta.json"`
occurrences), with slash-free distinct paths, every CSV with an
object-parsing sidecar at its derived path yields exactly one entry, with
`has_metadata = true`; every CSV whose derived sidecar path does not exist
yields exactly one entry, with `has_metadata = false`; and every CSV whose
sidecar exists but fails to read or parse yields zero entries (the
documented malformed-sidecar asymmetry, which refutes the unamended "every
CSV appears exactly once"). -/
theorem claim_C2_exactly_once (now : String) (T : List FSFile) (cat : Catalog)
    (ws : List FPath) (hwf : wfTree T = true) (hnd : pathsNodup T)
    (hgd : goodNames T = true) (hr : rebuild_catalog now T = some (cat, ws))
    (f : FSFile) (hf : f ∈ T) (hcsv : isCsvName f.path.name = true) :
    (∀ u ∈ T, u.path = sidecarFP f.path → ∀ o, u.parsed = some (Json.obj o) →
      (entriesFor cat f.path.posix).length = 1 ∧
        ∀ e ∈ entriesFor cat f.path.posix, e.has_metadata = true) ∧
    (existsIn T (sidecarFP f.path) = false →
      (entriesFor cat f.path.posix).length = 1 ∧
        ∀ e ∈ entriesFor cat f.path.posix, e.has_metadata = false) ∧
    (∀ u ∈ T, u.path = sidecarFP f.path → u.parsed = none →
      (entriesFor cat f.path.posix).length = 0) := by
  refine ⟨?_, ?_, ?_⟩
  · intro u hu hup o huo
    have hex : existsIn T (sidecarFP f.path) = true :=
      existsIn_iff.mpr ⟨u, hu, hup⟩
    constructor
    · rw [entriesFor_length hr, allEmits, List.countP_append,
        meta_count_one hwf hnd hgd hf hcsv hu hup huo,
        fb_count_zero hwf hf hex]
    · intro e he
      rcases mem_entriesFor.mp he with ⟨hed, hkey⟩
      rcases (mem_datasets_iff hr).mp hed with ⟨m, hm, hme⟩ | ⟨g, hg, hfb⟩
      · rcases metaEmits_eq_some_iff.mp hme with ⟨_, _, o2, _, rfl⟩
        rfl
      · exfalso
        rcases fbEmits_eq_some_iff.mp hfb with ⟨_, hnex, rfl⟩
        rw [buildFallbackEntry_csv_path] at hkey
        have hgp : g.path = f.path :=
          posix_inj (wfTree_okPath hwf hg) (wfTree_okPath hwf hf) hkey
        rw [hgp, hex] at hnex
        exact Bool.noConfusion hnex
  · intro hnex
    have hnone : ∀ a ∈ T, a.path = sidecarFP f.path →
        ¬ ∃ o, a.parsed = some (Json.obj o) := by
      intro a ha hap _
      exact absurd (existsIn_iff.mpr ⟨a, ha, hap⟩) (by simp [hnex])
    constructor
    · rw [entriesFor_length hr, allEmits, List.countP_append,
        meta_count_zero hwf hgd hf hcsv hnone,
        fb_count_one hwf hnd hf hcsv hnex]
    · intro e he
      rcases mem_entriesFor.mp he with ⟨hed, hkey⟩
      rcases (mem_datasets_iff hr).mp hed with ⟨m, hm, hme⟩ | ⟨g, hg, hfb⟩
      · exfalso
        have h2 := metaEmits_key_inv hwf hgd hf hcsv hm hme hkey
        exact hnone m hm h2.1 h2.2
      · rcases fbEmits_eq_some_iff.mp hfb with ⟨_, _, rfl⟩
        rfl
  · intro u hu hup hupar
    have hex : existsIn T (sidecarFP f.path) = true :=
      existsIn_iff.mpr ⟨u, hu, hup⟩
    have hnone : ∀ a ∈ T, a.path = sidecarFP f.path →
        ¬ ∃ o, a.parsed = some (Json.obj o) := by
      intro a ha hap hobj
      rcases hobj with ⟨o, ho⟩
      have hau : a = u :=
        List.inj_on_of_nodup_map hnd ha hu (by rw [hap, hup])
      rw [hau, hupar] at ho
      exact Option.noConfusion ho
    rw [entriesFor_length hr, allEmits, List.countP_append,
      meta_count_zero hwf hgd hf hcsv hnone, fb_count_zero hwf hf hex]

/-- Witness for C2 on `treeMixed`: the CSV `data/b.csv` with its valid
sidecar gets exactly one entry, a metadata-mode one. -/
theorem claim_C2_witness :
    (entriesFor mixedResult.1
        (FPath.posix { dir := ["data"], name := "b.csv" })).length = 1 ∧
      ∀ e ∈ entriesFor mixedResult.1
          (FPath.posix { dir := ["data"], name := "b.csv" }),
        e.has_metadata = true :=
  (claim_C2_exactly_once "ts" treeMixed mixedResult.1 mixedResult.2
      (by decide) (by decide) (by decide) rfl
      { path := { dir := ["data"], name := "b.csv" }, parsed := none }
      (List.mem_cons_self _ _) (by decide)).1
    { path := { dir := ["data"], name := "b.meta.json" },
      parsed := some (Json.obj [("title", Json.str "T")]) }
    (List.mem_cons_of_mem _ (List.mem_cons_self _ _))
    (by decide) [("title", Json.str "T")] rfl

/-- Claim C3 (amended): on a round-tripping tree, a CSV whose derived
sidecar exists but fails to read or parse gets a diagnostic (the sidecar's
path is in the warning list) and zero catalog entries — so
`total_datasets`, the length of `datasets`, does not count it.  (Unamended,
the diagnostic part fails on non-round-tripping names: see the
counterexample.) -/
theorem claim_C3_malformed_sidecar (now : String) (T : List FSFile)
    (cat : Catalog) (ws : List FPath) (hwf : wfTree T = true)
    (hnd : pathsNodup T) (hgd : goodNames T = true)
    (hr : rebuild_catalog now T = some (cat, ws)) (f : FSFile) (hf : f ∈ T)
    (hcsv : isCsvName f.path.name = true) (u : FSFile) (hu : u ∈ T)
    (hup : u.path = sidecarFP f.path) (hupar : u.parsed = none) :
    u.path ∈ ws ∧ (entriesFor cat f.path.posix).length = 0 := by
  obtain ⟨_, _, _, _, hws, _⟩ := rebuild_some_eq hr
  constructor
  · rw [hws]
    apply List.mem_filterMap.mpr
    refine ⟨u, hu, ?_⟩
    apply warnEmits_eq_some_iff.mpr
    refine ⟨sidecar_file_is_meta hgd hf hcsv hup, ?_, hupar, rfl⟩
    rw [sidecar_file_companion hgd hf hcsv hup]
    exact existsIn_iff.mpr ⟨f, hf, rfl⟩
  · have hex : existsIn T (sidecarFP f.path) = true :=
      existsIn_iff.mpr ⟨u, hu, hup⟩
    have hnone : ∀ a ∈ T, a.path = sidecarFP f.path →
        ¬ ∃ o, a.parsed = some (Json.obj o) := by
      intro a ha hap hobj
      rcases hobj with ⟨o, ho⟩
      have hau : a = u :=
        List.inj_on_of_nodup_map hnd ha hu (by rw [hap, hup])
      rw [hau, hupar] at ho
      exact Option.noConfusion ho
    rw [entriesFor_length hr, allEmits, List.countP_append,
      meta_count_zero hwf hgd hf hcsv hnone, fb_count_zero hwf hf hex]

/-- Witness for C3 on `treeMalformed`: the unparseable sidecar
`data/x.meta.json` is warned about and `data/x.csv` has zero entries. -/
theorem claim_C3_witness :
    ({ dir := ["data"], name := "x.meta.json" } : FPath) ∈ malformedResult.2 ∧
      (entriesFor malformedResult.1
        (FPath.posix { dir := ["data"], name := "x.csv" })).length = 0 :=
  claim_C3_malformed_sidecar "ts" treeMalformed malformedResult.1
    malformedResult.2 (by decide) (by decide) (by decide) rfl
    { path := { dir := ["data"], name := "x.csv" }, parsed := none }
    (List.mem_cons_self _ _) (by decide)
    { path := { dir := ["data"], name := "x.meta.json" }, parsed := none }
    (List.mem_cons_of_mem _ (List.mem_cons_self _ _)) (by decide) rfl

/-- Claim C6 (amended): on a round-tripping tree with slash-free distinct
paths, the produced catalog is the same whatever the filesystem enumeration
order (any permutation of the tree) and whatever the timestamp: every field
other than `generated_at`, the entry contents and the entry order are
determined solely by the input files.  (Unamended the claim fails: on a
tree where two sidecars derive the same companion CSV, entry order follows
enumeration order — see the counterexample.) -/
theorem claim_C6_order_independent (now1 now2 : String) (T T2 : List FSFile)
    (hperm : T.Perm T2) (hwf : wfTree T = true) (hnd : pathsNodup T)
    (hgd : goodNames T = true) (c1 c2 : Catalog) (w1 w2 : List FPath)
    (h1 : rebuild_catalog now1 T = some (c1, w1))
    (h2 : rebuild_catalog now2 T2 = some (c2, w2)) :
    c1.schema_version = c2.schema_version ∧
      c1.total_datasets = c2.total_datasets ∧ c1.datasets = c2.datasets := by
  obtain ⟨hs1, _, hds1, hlen1, _, hnb1⟩ := rebuild_some_eq h1
  obtain ⟨hs2, _, hds2, hlen2, _, _⟩ := rebuild_some_eq h2
  have hpermAll : (allEmits T).Perm (allEmits T2) := allEmits_perm hperm
  refine ⟨by rw [hs1, hs2], ?_, ?_⟩
  · rw [hlen1, hlen2]
    exact hpermAll.length_eq
  · rw [hds1, hds2]
    apply sorted_nodup_unique
    · exact (sortEntries_perm _).trans
        (hpermAll.trans (sortEntries_perm _).symm)
    · exact sortEntries_pairwise _
    · exact sortEntries_pairwise _
    · have hkeys := allEmits_keys_nodup hwf hnd hgd hnb1
      exact (((sortEntries_perm (allEmits T)).map Entry.csv_path).nodup_iff).mpr
        hkeys

/-- Witness for C6: `treeMixed` scanned forwards at one timestamp and
backwards at another yields the same catalog body. -/
theorem claim_C6_witness :
    mixedResult.1.schema_version = mixedRevResult.1.schema_version ∧
      mixedResult.1.total_datasets = mixedRevResult.1.total_datasets ∧
      mixedResult.1.datasets = mixedRevResult.1.datasets :=
  claim_C6_order_independent "ts" "ts2" treeMixed treeMixed.reverse
    (List.reverse_perm treeMixed).symm (by decide) (by decide) (by decide)
    mixedResult.1 mixedRevResult.1 mixedResult.2 mixedRevResult.2 rfl rfl

end RebuildCatalog
